import Mathlib

/-!
# Sparse per-item field store (`internal/collection/fields.go`)

A shallow embedding of `itemFields` and its methods `getField`, `setField`,
`setFields`, `deleteField` and `weight`.

* Go `int` arguments are `Int`; the conversions `uint(k)` and `uint8(k)` are
  explicit reductions modulo `2^64` and `2^8`.
* `float64` and `float32` are IEEE-754 bit fields; `float32(v)` rounds to
  nearest, ties to even, and `float64(x)` is exact.
* A method with a pointer receiver is a function from the store to
  `Option (store × result)`; `none` is a Go panic (the explicit
  `panic("should not be here")` or an index out of range).
-/

set_option maxRecDepth 100000

namespace Fields

/-! ## Machine numbers -/

/-- Reduction of a natural number to `w` bits. -/
def wrap (w : Nat) (n : Nat) : Fin (2 ^ w) :=
  ⟨n % 2 ^ w, Nat.mod_lt _ (Nat.two_pow_pos w)⟩

/-- Stored field index, Go `uint8`. -/
abbrev uint8 := Fin (2 ^ 8)

/-- Go conversion `uint8(k)` of an `int`. -/
def toUint8 (k : Int) : uint8 :=
  wrap 8 (k % 256).toNat

/-- Go conversion `uint(k)` of an `int` (64-bit words). -/
def toUint (k : Int) : Nat :=
  (k % 2 ^ 64).toNat

/-- IEEE-754 binary64: sign, biased exponent, fraction. -/
structure Float64 where
  sign : Bool
  exponent : Fin (2 ^ 11)
  mantissa : Fin (2 ^ 52)
deriving DecidableEq

/-- IEEE-754 binary32: sign, biased exponent, fraction. -/
structure Float32 where
  sign : Bool
  exponent : Fin (2 ^ 8)
  mantissa : Fin (2 ^ 23)
deriving DecidableEq

namespace Float64

/-- Not-a-number test. -/
def isNaN (x : Float64) : Bool :=
  x.exponent.val == 2047 && x.mantissa.val != 0

/-- Positive or negative zero. -/
def isZero (x : Float64) : Bool :=
  x.exponent.val == 0 && x.mantissa.val == 0

/-- Go `a != b` on `float64`: a NaN differs from everything, the two zeros are equal. -/
def ne (a b : Float64) : Bool :=
  a.isNaN || b.isNaN || !((a.isZero && b.isZero) || decide (a = b))

/-- The value with the given 64-bit pattern (sign, 11 exponent bits, 52 fraction bits). -/
def ofBits (n : Nat) : Float64 :=
  ⟨n / 2 ^ 63 % 2 = 1, wrap 11 (n / 2 ^ 52), wrap 52 n⟩

/-- The constant `0` (positive zero). -/
def zero : Float64 := ⟨false, wrap 11 0, wrap 52 0⟩

/-- Go conversion `float32(x)`: round to nearest, ties to even; overflow gives an
infinity, a NaN stays a (quiet) NaN, a magnitude below `2^-150` (biased exponent at
most 872, zeros and subnormals included) rounds to a zero. `bits` is the exponent and
fraction of the result read as one number, so that a carry out of the fraction moves
into the exponent. -/
def toFloat32 (x : Float64) : Float32 :=
  let e := x.exponent.val
  let f := x.mantissa.val
  if e = 2047 then
    if f = 0 then ⟨x.sign, wrap 8 255, wrap 23 0⟩
    else ⟨x.sign, wrap 8 255, wrap 23 (f / 2 ^ 29 % 2 ^ 22 + 2 ^ 22)⟩
  else if e ≤ 872 then ⟨x.sign, wrap 8 0, wrap 23 0⟩
  else
    let m := 2 ^ 52 + f
    let shift := if 897 ≤ e then 29 else 926 - e
    let base := if 897 ≤ e then (e - 897) * 2 ^ 23 else 0
    let n0 := m / 2 ^ shift
    let rem := m % 2 ^ shift
    let half := 2 ^ (shift - 1)
    let r := if half < rem ∨ (rem = half ∧ n0 % 2 = 1) then 1 else 0
    let bits := base + n0 + r
    if 255 * 2 ^ 23 ≤ bits then ⟨x.sign, wrap 8 255, wrap 23 0⟩
    else ⟨x.sign, wrap 8 (bits / 2 ^ 23), wrap 23 bits⟩

end Float64

namespace Float32

/-- Position of the highest set bit of `m`, searched below `fuel`. -/
def topBit : Nat → Nat → Nat
  | 0, _ => 0
  | fuel + 1, m => if 2 ^ fuel ≤ m then fuel else topBit fuel m

/-- Go conversion `float64(x)`: exact widening. -/
def toFloat64 (x : Float32) : Float64 :=
  let e := x.exponent.val
  let f := x.mantissa.val
  if e = 255 then
    if f = 0 then ⟨x.sign, wrap 11 2047, wrap 52 0⟩
    else ⟨x.sign, wrap 11 2047, wrap 52 (f % 2 ^ 22 * 2 ^ 29 + 2 ^ 51)⟩
  else if e = 0 then
    if f = 0 then ⟨x.sign, wrap 11 0, wrap 52 0⟩
    else
      let p := topBit 23 f
      ⟨x.sign, wrap 11 (p + 874), wrap 52 ((f - 2 ^ p) * 2 ^ (52 - p))⟩
  else ⟨x.sign, wrap 11 (e + 896), wrap 52 (f * 2 ^ 29)⟩

/-- The value with the given 32-bit pattern (sign, 8 exponent bits, 23 fraction bits). -/
def ofBits (n : Nat) : Float32 :=
  ⟨n / 2 ^ 31 % 2 = 1, wrap 8 (n / 2 ^ 23), wrap 23 n⟩

/-- The zero value of `float32`, what `make([]float32, n)` fills with. -/
def zero : Float32 := ⟨false, wrap 8 0, wrap 23 0⟩

end Float32

/-- The value a `float64` has after being stored as `float32` and read back. -/
def round32 (v : Float64) : Float64 :=
  v.toFloat32.toFloat64

/-! ## The bit vector -/

/-- Modelled from the spec: the presence bit vector is the external collaborator
`github.com/willf/bitset` (spec §6: `test`, `set`, `setTo`, `binaryStorageSize`), whose
source is not part of the repository. It is a growable vector of bits; a bit that
was never reached reads as clear. -/
structure BitSet where
  bits : List Bool
deriving DecidableEq

namespace BitSet

/-- The zero value of `bitset.BitSet`. -/
def empty : BitSet := ⟨[]⟩

/-- Modelled from the spec: `test(bit) → bool`; a bit beyond the current length is clear. -/
def Test (b : BitSet) (i : Nat) : Bool :=
  b.bits.getD i false

/-- Modelled from the spec: `set(bit)`; the vector grows to hold bit `i`. -/
def Set (b : BitSet) (i : Nat) : BitSet :=
  ⟨(b.bits ++ List.replicate (i + 1 - b.bits.length) false).set i true⟩

/-- Modelled from the spec: `setTo(bit, bool)`; clearing never grows the vector. -/
def SetTo (b : BitSet) (i : Nat) (value : Bool) : BitSet :=
  if value then b.Set i else ⟨b.bits.set i false⟩

/-- Modelled from the spec: `binaryStorageSize() → int`, the bytes needed to serialize
the vector: an 8-byte length and one 8-byte word per 64 bits. -/
def BinaryStorageSize (b : BitSet) : Nat :=
  8 + 8 * ((b.bits.length + 63) / 64)

end BitSet

/-! ## The store -/

/-- Go `itemFields`: the presence bitset and the two parallel slices. -/
structure itemFields where
  fieldBitset : BitSet
  fieldIndexes : List uint8
  fieldValues : List Float32
deriving DecidableEq

/-- The zero value of `itemFields`, the store of a fresh item. -/
def itemFields.empty : itemFields := ⟨BitSet.empty, [], []⟩

/-- The loop `for j := 0; j < n; j++ { if fieldIndexes[j] == u { ... } }`: the first
slot holding `u`, if any. -/
def findSlot (u : uint8) : List uint8 → Option Nat
  | [] => none
  | x :: xs => if x = u then some 0 else (findSlot u xs).map (· + 1)

/-- Go `getField`. The body assigns nothing, so the store comes back as it went in. -/
def getField (i : itemFields) (k : Int) : Option (itemFields × Float64) :=
  let u := toUint8 k
  let ok := i.fieldBitset.Test (toUint k)
  if !ok then
    some (i, Float64.zero)
  else
    match findSlot u i.fieldIndexes with
    | some j =>
      match i.fieldValues[j]? with
      | some x => some (i, x.toFloat64)
      | none => none
    | none => none

/-- Go `setField`. -/
def setField (i : itemFields) (k : Int) (val : Float64) : Option (itemFields × Bool) :=
  let u := toUint8 k
  let ok := i.fieldBitset.Test (toUint k)
  if ok then
    match findSlot u i.fieldIndexes with
    | some j =>
      match i.fieldValues[j]? with
      | some x =>
        let old := x.toFloat64
        some ({ i with fieldValues := i.fieldValues.set j val.toFloat32 }, old.ne val)
      | none => none
    | none => none
  else
    some ({ fieldBitset := i.fieldBitset.Set (toUint k),
            fieldIndexes := i.fieldIndexes ++ [u],
            fieldValues := i.fieldValues ++ [val.toFloat32] },
          val.ne Float64.zero)

/-- First loop of `setFields`: the number of ids whose presence bit is clear. -/
def countNew (b : BitSet) : List Int → Nat
  | [] => 0
  | k :: ks => if b.Test (toUint k) then countNew b ks else countNew b ks + 1

/-- The variables the second loop of `setFields` updates. -/
structure loopState where
  fieldBitset : BitSet
  fieldValues : List Float32
  newFields : List uint8
  newValues : List Float32
  j : Nat
  updatedFields : Nat
deriving DecidableEq

/-- Second loop of `setFields`, over `ks[z:]` with `vals[z:]` alongside; `fieldIndexes`
is the slice as it was on entry (`offset` is its length), which the loop never writes. -/
def setFieldsLoop (fieldIndexes : List uint8) :
    List Int → List Float64 → loopState → Option loopState
  | [], _, st => some st
  | k :: ks, vals, st =>
    if st.fieldBitset.Test (toUint k) then
      match findSlot (toUint8 k) fieldIndexes with
      | some search =>
        match st.fieldValues[search]?, vals.head? with
        | some x, some v =>
          setFieldsLoop fieldIndexes ks vals.tail
            { st with
              fieldValues := st.fieldValues.set search v.toFloat32,
              updatedFields := st.updatedFields + (if x.toFloat64.ne v then 1 else 0) }
        | _, _ => none
      | none => setFieldsLoop fieldIndexes ks vals.tail st
    else
      match vals.head? with
      | some v =>
        if st.j < st.newFields.length ∧ st.j < st.newValues.length then
          setFieldsLoop fieldIndexes ks vals.tail
            { fieldBitset := st.fieldBitset.Set (toUint k),
              fieldValues := st.fieldValues,
              newFields := st.newFields.set st.j (toUint8 k),
              newValues := st.newValues.set st.j v.toFloat32,
              j := st.j + 1,
              updatedFields := st.updatedFields + (if v.ne Float64.zero then 1 else 0) }
        else none
      | none => none

/-- Go `setFields`. -/
def setFields (i : itemFields) (ks : List Int) (vals : List Float64) :
    Option (itemFields × Nat) :=
  let numNewFields := countNew i.fieldBitset ks
  let newFields : List uint8 := List.replicate numNewFields (wrap 8 0)
  let newValues : List Float32 := List.replicate numNewFields Float32.zero
  match setFieldsLoop i.fieldIndexes ks vals
      ⟨i.fieldBitset, i.fieldValues, newFields, newValues, 0, 0⟩ with
  | some st =>
    if numNewFields > 0 then
      some ({ fieldBitset := st.fieldBitset,
              fieldIndexes := i.fieldIndexes ++ st.newFields,
              fieldValues := st.fieldValues ++ st.newValues },
            st.updatedFields)
    else
      some ({ fieldBitset := st.fieldBitset,
              fieldIndexes := i.fieldIndexes,
              fieldValues := st.fieldValues },
            st.updatedFields)
  | none => none

/-- The statement `a[n-1], a[t] = a[t], a[n-1]` followed by `a = a[:n-1]`; `none` when
an index is out of range. -/
def swapRemove {α : Type} (a : List α) (n t : Nat) : Option (List α) :=
  if n = 0 then none
  else
    match a[n - 1]?, a[t]? with
    | some last, some x => some (((a.set (n - 1) x).set t last).take (n - 1))
    | _, _ => none

/-- Go `deleteField`. -/
def deleteField (i : itemFields) (k : Int) : Option itemFields :=
  let u := toUint8 k
  let ok := i.fieldBitset.Test (toUint k)
  if !ok then
    some i
  else
    let b := i.fieldBitset.SetTo (toUint k) false
    let numFields := i.fieldIndexes.length
    let target := (findSlot u i.fieldIndexes).getD numFields
    match swapRemove i.fieldIndexes numFields target with
    | some fi =>
      match swapRemove i.fieldValues numFields target with
      | some fv => some ⟨b, fi, fv⟩
      | none => none
    | none => none

/-- Go `weight`. -/
def weight (i : itemFields) : Nat :=
  5 * i.fieldIndexes.length + i.fieldBitset.BinaryStorageSize

/-! ## Values and stores of the worked examples -/

/-- The `float64` 1.0. -/
def Float64.one : Float64 := Float64.ofBits 0x3FF0000000000000

/-- The `float64` 2.0. -/
def Float64.two : Float64 := Float64.ofBits 0x4000000000000000

/-- The `float64` 5.0. -/
def Float64.five : Float64 := Float64.ofBits 0x4014000000000000

/-- The `float64` 7.0. -/
def Float64.seven : Float64 := Float64.ofBits 0x401C000000000000

/-- The `float64` 9.0. -/
def Float64.nine : Float64 := Float64.ofBits 0x4022000000000000

/-- The `float64` nearest to 0.1, which no `float32` represents exactly. -/
def Float64.tenth : Float64 := Float64.ofBits 0x3FB999999999999A

/-- The store `fieldIndexes = [3]`, `fieldValues = [5]`, bit 3 set. -/
def store3 : itemFields :=
  ⟨BitSet.empty.Set 3, [wrap 8 3], [Float64.five.toFloat32]⟩

/-- The store `fieldIndexes = [1, 2, 3]`, `fieldValues = [0, 0, 9]`, bits 1, 2, 3 set. -/
def store123 : itemFields :=
  ⟨((BitSet.empty.Set 1).Set 2).Set 3, [wrap 8 1, wrap 8 2, wrap 8 3],
    [Float32.zero, Float32.zero, Float64.nine.toFloat32]⟩

/-- A store in which id 5 occurs twice while bit 5 is clear:
`fieldIndexes = [5, 5]`, `fieldValues = [1, 2]`, no bit set. -/
def dupStore : itemFields :=
  ⟨BitSet.empty, [wrap 8 5, wrap 8 5], [Float64.one.toFloat32, Float64.two.toFloat32]⟩

/-! ## Invariants of the data model -/

/-- A field id that fits the single stored byte. -/
def validId (k : Int) : Prop :=
  0 ≤ k ∧ k < 256

instance (k : Int) : Decidable (validId k) := by
  unfold validId; infer_instance

/-- The two slices have the same length. -/
def lengthInv (s : itemFields) : Prop :=
  s.fieldIndexes.length = s.fieldValues.length

instance (s : itemFields) : Decidable (lengthInv s) := by
  unfold lengthInv; infer_instance

/-- Bit `k` is set if and only if `k` occurs exactly once in `fieldIndexes`. -/
def presenceInv (s : itemFields) : Prop :=
  ∀ k : Nat, s.fieldBitset.Test k = true ↔ (s.fieldIndexes.map Fin.val).count k = 1

/-- The invariants of the data model: equal lengths and the presence invariant. -/
def dataModelInv (s : itemFields) : Prop :=
  lengthInv s ∧ presenceInv s

/-- Bit `k` is set if and only if `k` occurs in `fieldIndexes`, and no id occurs
more than once. -/
def trackedInv (s : itemFields) : Prop :=
  (∀ k : Nat, s.fieldBitset.Test k = true ↔ k ∈ s.fieldIndexes.map Fin.val) ∧
    s.fieldIndexes.Nodup

/-- Every tracked id of the list has a slot that holds a value. -/
def slotsPresent (s : itemFields) (ks : List Int) : Prop :=
  ∀ k ∈ ks, s.fieldBitset.Test (toUint k) = true →
    ∃ t, findSlot (toUint8 k) s.fieldIndexes = some t ∧ t < s.fieldValues.length

/-- Equal lengths together with `trackedInv`. -/
def wellFormed (s : itemFields) : Prop :=
  lengthInv s ∧ trackedInv s

/-! ## The sequential reading of a batch, and reachable stores -/

/-- The loop `setField(ks[0], vals[0]); ...; setField(ks[n-1], vals[n-1])` of the
batch-equivalence property, together with the number of calls that returned true. -/
def setFieldSeq : itemFields → List Int → List Float64 → Option (itemFields × Nat)
  | s, [], _ => some (s, 0)
  | _, _ :: _, [] => none
  | s, k :: ks, v :: vs =>
    match setField s k v with
    | some (s1, changed) =>
      match setFieldSeq s1 ks vs with
      | some (s2, n) => some (s2, (if changed then 1 else 0) + n)
      | none => none
    | none => none

/-- The store a sequence of `setField` calls has reached when the batch loop is in
state `st`. -/
def seqStore (fi : List uint8) (st : loopState) : itemFields :=
  ⟨st.fieldBitset, fi ++ st.newFields.take st.j, st.fieldValues ++ st.newValues.take st.j⟩

/-- The value `getField(k)` returns, without the store. -/
def storedValue (s : itemFields) (k : Int) : Option Float64 :=
  (getField s k).map Prod.snd

/-- Number of positions `j` where `ks[j]` is tracked in `s` and its stored value
differs from `vals[j]`. -/
def countChangedTracked (s : itemFields) (ks : List Int) (vals : List Float64) : Nat :=
  (ks.zip vals).countP fun p =>
    s.fieldBitset.Test (toUint p.1) &&
      (match storedValue s p.1 with
        | some old => old.ne p.2
        | none => false)

/-- Number of positions `j` where `ks[j]` is not tracked in `s` and `vals[j] != 0`. -/
def countNonZeroNew (s : itemFields) (ks : List Int) (vals : List Float64) : Nat :=
  (ks.zip vals).countP fun p =>
    !s.fieldBitset.Test (toUint p.1) && p.2.ne Float64.zero

/-- The stores reachable from the zero-value store by `setField` and `deleteField` with
ids in 0..255 and by `setFields` with duplicate-free lists of such ids and as many
values. -/
inductive Reachable : itemFields → Prop
  | empty : Reachable itemFields.empty
  | setField {s s' : itemFields} {k : Int} {v : Float64} {changed : Bool} :
      Reachable s → validId k → setField s k v = some (s', changed) → Reachable s'
  | deleteField {s s' : itemFields} {k : Int} :
      Reachable s → validId k → deleteField s k = some s' → Reachable s'
  | setFields {s s' : itemFields} {ks : List Int} {vals : List Float64} {n : Nat} :
      Reachable s → (∀ k ∈ ks, validId k) → ks.Nodup → vals.length = ks.length →
      setFields s ks vals = some (s', n) → Reachable s'

/-- Number of presence bits that are set: the indices below the length of the vector
whose bit tests true. -/
def setBits (b : BitSet) : Nat :=
  ((List.range b.bits.length).filter b.Test).length

/-- The stores reachable from the zero-value store by `setField` and `deleteField` with
any id and by `setFields` with any list of ids, repeated ids included, and as many
values. -/
inductive ReachableAny : itemFields → Prop
  | empty : ReachableAny itemFields.empty
  | setField {s s' : itemFields} {k : Int} {v : Float64} {changed : Bool} :
      ReachableAny s → setField s k v = some (s', changed) → ReachableAny s'
  | deleteField {s s' : itemFields} {k : Int} :
      ReachableAny s → deleteField s k = some s' → ReachableAny s'
  | setFields {s s' : itemFields} {ks : List Int} {vals : List Float64} {n : Nat} :
      ReachableAny s → vals.length = ks.length →
      setFields s ks vals = some (s', n) → ReachableAny s'

/-! ## Basic facts -/

theorem toUint_of_valid {k : Int} (hk : validId k) : toUint k = k.toNat := by
  obtain ⟨h0, h1⟩ := hk
  unfold toUint
  rw [Int.emod_eq_of_lt h0 (by omega)]

theorem toUint8_val_of_valid {k : Int} (hk : validId k) : (toUint8 k).val = k.toNat := by
  obtain ⟨h0, h1⟩ := hk
  unfold toUint8 wrap
  simp only
  rw [Int.emod_eq_of_lt h0 (by omega)]
  apply Nat.mod_eq_of_lt
  omega

theorem toUint8_val_eq_toUint {k : Int} (hk : validId k) : (toUint8 k).val = toUint k := by
  rw [toUint8_val_of_valid hk, toUint_of_valid hk]

namespace BitSet

theorem Test_empty (i : Nat) : empty.Test i = false := by
  simp [Test, empty]

theorem Test_Set_self (b : BitSet) (i : Nat) : (b.Set i).Test i = true := by
  unfold Test Set
  simp only
  rw [List.getD_eq_getElem?_getD, List.getElem?_set_self]
  · rfl
  · simp only [List.length_append, List.length_replicate]; omega

theorem Test_Set_ne (b : BitSet) {i j : Nat} (h : j ≠ i) : (b.Set i).Test j = b.Test j := by
  unfold Test Set
  simp only
  rw [List.getD_eq_getElem?_getD, List.getD_eq_getElem?_getD, List.getElem?_set_ne (Ne.symm h)]
  by_cases hj : j < b.bits.length
  · rw [List.getElem?_append_left hj]
  · have hb : b.bits[j]? = none := List.getElem?_eq_none (by omega)
    rw [List.getElem?_append_right (by omega), hb]
    cases hh : (List.replicate (i + 1 - b.bits.length) false)[j - b.bits.length]? with
    | none => rfl
    | some x =>
      rw [List.getElem?_eq_some_iff] at hh
      obtain ⟨_, hx⟩ := hh
      simp at hx
      simp [← hx]

theorem Test_SetTo_false_self (b : BitSet) (i : Nat) : (b.SetTo i false).Test i = false := by
  unfold Test SetTo
  simp only [Bool.false_eq_true, if_false]
  rw [List.getD_eq_getElem?_getD]
  by_cases hi : i < b.bits.length
  · rw [List.getElem?_set_self hi]; rfl
  · rw [List.getElem?_eq_none (by simp; omega)]; rfl

theorem Test_SetTo_false_ne (b : BitSet) {i j : Nat} (h : j ≠ i) :
    (b.SetTo i false).Test j = b.Test j := by
  unfold Test SetTo
  simp only [Bool.false_eq_true, if_false]
  rw [List.getD_eq_getElem?_getD, List.getD_eq_getElem?_getD, List.getElem?_set_ne (Ne.symm h)]

theorem BinaryStorageSize_SetTo_false (b : BitSet) (i : Nat) :
    (b.SetTo i false).BinaryStorageSize = b.BinaryStorageSize := by
  simp [BinaryStorageSize, SetTo]

end BitSet

theorem findSlot_eq_none_iff (u : uint8) (xs : List uint8) :
    findSlot u xs = none ↔ u ∉ xs := by
  induction xs with
  | nil => simp [findSlot]
  | cons x xs ih =>
    unfold findSlot
    by_cases h : x = u
    · simp [h]
    · simp [h, ih, Ne.symm h]

theorem findSlot_some {u : uint8} {xs : List uint8} {j : Nat} (h : findSlot u xs = some j) :
    j < xs.length ∧ xs[j]? = some u ∧ ∀ i, i < j → xs[i]? ≠ some u := by
  induction xs generalizing j with
  | nil => simp [findSlot] at h
  | cons x xs ih =>
    unfold findSlot at h
    by_cases hx : x = u
    · simp [hx] at h
      subst h
      simp [hx]
    · simp only [hx, if_false, Option.map_eq_some'] at h
      obtain ⟨j', hj', rfl⟩ := h
      obtain ⟨h1, h2, h3⟩ := ih hj'
      refine ⟨by simp; omega, by simpa using h2, ?_⟩
      intro i hi
      cases i with
      | zero => simp [hx]
      | succ i => simpa using h3 i (by omega)

theorem findSlot_of_mem {u : uint8} {xs : List uint8} (h : u ∈ xs) :
    ∃ j, findSlot u xs = some j := by
  cases hh : findSlot u xs with
  | none => exact absurd h ((findSlot_eq_none_iff u xs).1 hh)
  | some j => exact ⟨j, rfl⟩

theorem findSlot_append_left {u : uint8} {xs : List uint8} (ys : List uint8) {j : Nat}
    (h : findSlot u xs = some j) : findSlot u (xs ++ ys) = some j := by
  induction xs generalizing j with
  | nil => simp [findSlot] at h
  | cons x xs ih =>
    simp only [List.cons_append]
    unfold findSlot at h ⊢
    by_cases hx : x = u
    · simpa [hx] using h
    · simp only [hx, if_false, Option.map_eq_some'] at h ⊢
      obtain ⟨j', hj', rfl⟩ := h
      exact ⟨j', ih hj', rfl⟩

theorem findSlot_append_self {u : uint8} {xs : List uint8} (h : u ∉ xs) :
    findSlot u (xs ++ [u]) = some xs.length := by
  induction xs with
  | nil => simp [findSlot]
  | cons x xs ih =>
    simp only [List.mem_cons, not_or] at h
    simp only [List.cons_append]
    unfold findSlot
    simp [Ne.symm h.1, ih h.2]

/-! ## Deciding the invariants on a concrete store -/

theorem Test_eq_false_of_length_le (b : BitSet) {k : Nat} (h : b.bits.length ≤ k) :
    b.Test k = false := by
  unfold BitSet.Test
  rw [List.getD_eq_getElem?_getD, List.getElem?_eq_none h]
  rfl

theorem not_mem_map_val_of_le (xs : List uint8) {k : Nat} (h : 256 ≤ k) :
    k ∉ xs.map Fin.val := by
  intro hm
  obtain ⟨u, _, hu⟩ := List.mem_map.1 hm
  have := u.isLt
  omega

theorem presenceInv_iff_bounded (s : itemFields) :
    presenceInv s ↔ ∀ k, k < max s.fieldBitset.bits.length 256 →
      (s.fieldBitset.Test k = true ↔ (s.fieldIndexes.map Fin.val).count k = 1) := by
  constructor
  · intro h k _
    exact h k
  · intro h k
    by_cases hk : k < max s.fieldBitset.bits.length 256
    · exact h k hk
    · have h1 : s.fieldBitset.Test k = false :=
        Test_eq_false_of_length_le _ (by omega)
      have h2 : (s.fieldIndexes.map Fin.val).count k = 0 :=
        List.count_eq_zero.2 (not_mem_map_val_of_le _ (by omega))
      exact ⟨fun h => (by rw [h1] at h; cases h), fun h => by omega⟩

instance (s : itemFields) : Decidable (presenceInv s) :=
  decidable_of_iff _ (presenceInv_iff_bounded s).symm

instance (s : itemFields) : Decidable (dataModelInv s) := by
  unfold dataModelInv; infer_instance

theorem trackedInv_iff_bounded (s : itemFields) :
    trackedInv s ↔ (∀ k, k < max s.fieldBitset.bits.length 256 →
      (s.fieldBitset.Test k = true ↔ k ∈ s.fieldIndexes.map Fin.val)) ∧
        s.fieldIndexes.Nodup := by
  unfold trackedInv
  constructor
  · rintro ⟨h, hn⟩
    exact ⟨fun k _ => h k, hn⟩
  · rintro ⟨h, hn⟩
    refine ⟨fun k => ?_, hn⟩
    by_cases hk : k < max s.fieldBitset.bits.length 256
    · exact h k hk
    · have h1 : s.fieldBitset.Test k = false :=
        Test_eq_false_of_length_le _ (by omega)
      have h2 : k ∉ s.fieldIndexes.map Fin.val := not_mem_map_val_of_le _ (by omega)
      exact ⟨fun h => (by rw [h1] at h; cases h), fun h => absurd h h2⟩

instance (s : itemFields) : Decidable (trackedInv s) :=
  decidable_of_iff _ (trackedInv_iff_bounded s).symm

instance (s : itemFields) : Decidable (wellFormed s) := by
  unfold wellFormed; infer_instance

/-! ## Single-field operations -/

theorem getField_of_clear {s : itemFields} {k : Int}
    (h : s.fieldBitset.Test (toUint k) = false) : getField s k = some (s, Float64.zero) := by
  simp [getField, h]

theorem setField_of_clear {s : itemFields} {k : Int} (v : Float64)
    (h : s.fieldBitset.Test (toUint k) = false) :
    setField s k v =
      some (⟨s.fieldBitset.Set (toUint k), s.fieldIndexes ++ [toUint8 k],
             s.fieldValues ++ [v.toFloat32]⟩, v.ne Float64.zero) := by
  simp [setField, h]

theorem getField_of_slot {s : itemFields} {k : Int} {j : Nat} {x : Float32}
    (h : s.fieldBitset.Test (toUint k) = true)
    (hj : findSlot (toUint8 k) s.fieldIndexes = some j) (hx : s.fieldValues[j]? = some x) :
    getField s k = some (s, x.toFloat64) := by
  simp [getField, h, hj, hx]

theorem setField_of_slot {s : itemFields} {k : Int} (v : Float64) {j : Nat} {x : Float32}
    (h : s.fieldBitset.Test (toUint k) = true)
    (hj : findSlot (toUint8 k) s.fieldIndexes = some j) (hx : s.fieldValues[j]? = some x) :
    setField s k v =
      some (⟨s.fieldBitset, s.fieldIndexes, s.fieldValues.set j v.toFloat32⟩,
            x.toFloat64.ne v) := by
  simp [setField, h, hj, hx]

theorem slot_unique {u : uint8} {xs : List uint8} {k t i : Nat}
    (hc : (xs.map Fin.val).count k = 1) (hu : u.val = k) (ht : findSlot u xs = some t)
    (hi : xs[i]? = some u) : i = t := by
  subst hu
  induction xs generalizing t i with
  | nil => simp [findSlot] at ht
  | cons x xs ih =>
    unfold findSlot at ht
    by_cases hx : x = u
    · simp only [hx, if_true, Option.some.injEq] at ht
      subst ht
      cases i with
      | zero => rfl
      | succ i =>
        exfalso
        simp only [hx, List.map_cons, List.count_cons_self] at hc
        have h0 : (xs.map Fin.val).count u.val = 0 := by omega
        have hm : u.val ∈ xs.map Fin.val :=
          List.mem_map.2 ⟨u, List.getElem?_mem (by simpa using hi), rfl⟩
        exact List.count_eq_zero.1 h0 hm
    · simp only [hx, if_false, Option.map_eq_some'] at ht
      obtain ⟨t', ht', rfl⟩ := ht
      have hxv : ¬ x.val = u.val := fun h => hx (Fin.ext h)
      cases i with
      | zero => simp [hx] at hi
      | succ i =>
        have hc' : (xs.map Fin.val).count u.val = 1 := by
          simpa [List.count_cons, hxv] using hc
        have hxi : xs[i]? = some u := by simpa using hi
        rw [ih ht' hxi hc']

/-- Under the data-model invariants a tracked valid id has a slot, and the slot
holds a value. -/
theorem slot_of_tracked {s : itemFields} {k : Int} (hinv : dataModelInv s) (hk : validId k)
    (h : s.fieldBitset.Test (toUint k) = true) :
    ∃ j x, findSlot (toUint8 k) s.fieldIndexes = some j ∧ s.fieldValues[j]? = some x := by
  obtain ⟨hlen, hp⟩ := hinv
  have hc := (hp (toUint k)).1 h
  have hm : toUint k ∈ s.fieldIndexes.map Fin.val :=
    List.count_pos_iff.1 (by omega)
  obtain ⟨u, hu, huv⟩ := List.mem_map.1 hm
  have hu8 : u = toUint8 k := Fin.ext (by rw [huv, toUint8_val_eq_toUint hk])
  subst hu8
  obtain ⟨j, hj⟩ := findSlot_of_mem hu
  have hjl := (findSlot_some hj).1
  unfold lengthInv at hlen
  have hjv : j < s.fieldValues.length := by omega
  exact ⟨j, s.fieldValues[j], hj, List.getElem?_eq_getElem hjv⟩

/-- C6: on an id in 0..255 whose presence bit is clear, `setField` sets that bit and no
other, appends the id to `fieldIndexes` and `float32(v)` to `fieldValues`, and returns
true exactly when `v != 0`; no invariant of the store is needed. -/
theorem setField_untracked (s : itemFields) (k : Int) (v : Float64) (hk : validId k)
    (hclear : s.fieldBitset.Test (toUint k) = false) :
    ∃ s' changed, setField s k v = some (s', changed) ∧
      s'.fieldBitset.Test (toUint k) = true ∧
      (∀ i : Nat, i ≠ toUint k → s'.fieldBitset.Test i = s.fieldBitset.Test i) ∧
      s'.fieldIndexes = s.fieldIndexes ++ [toUint8 k] ∧
      (toUint8 k).val = k.toNat ∧
      s'.fieldValues = s.fieldValues ++ [v.toFloat32] ∧
      (changed = true ↔ v.ne Float64.zero = true) := by
  refine ⟨_, _, setField_of_clear v hclear, ?_, ?_, rfl, toUint8_val_of_valid hk, rfl, Iff.rfl⟩
  · exact BitSet.Test_Set_self _ _
  · intro i hi
    exact BitSet.Test_Set_ne _ hi

/-- C7: on a tracked id in 0..255 of a store satisfying the data-model invariants,
`setField` returns true exactly when the value `getField` returned before the call
differs from `v`; it overwrites the slot of `k` with `float32(v)` and leaves
`fieldIndexes`, the number of fields and the presence bits as they were. -/
theorem setField_tracked (s : itemFields) (k : Int) (v : Float64) (hinv : dataModelInv s)
    (hk : validId k) (hset : s.fieldBitset.Test (toUint k) = true) :
    ∃ s' changed old t, getField s k = some (s, old) ∧
      setField s k v = some (s', changed) ∧
      (changed = true ↔ old.ne v = true) ∧
      s.fieldIndexes[t]? = some (toUint8 k) ∧
      (∀ i, s.fieldIndexes[i]? = some (toUint8 k) → i = t) ∧
      s'.fieldValues = s.fieldValues.set t v.toFloat32 ∧
      s'.fieldValues[t]? = some v.toFloat32 ∧
      (∀ i, i ≠ t → s'.fieldValues[i]? = s.fieldValues[i]?) ∧
      s'.fieldIndexes = s.fieldIndexes ∧
      s'.fieldValues.length = s.fieldValues.length ∧
      s'.fieldBitset = s.fieldBitset := by
  obtain ⟨j, x, hj, hx⟩ := slot_of_tracked hinv hk hset
  have hjs := findSlot_some hj
  have hjv : j < s.fieldValues.length := (List.getElem?_eq_some_iff.1 hx).1
  refine ⟨_, _, x.toFloat64, j, getField_of_slot hset hj hx, setField_of_slot v hset hj hx,
    Iff.rfl, hjs.2.1, ?_, rfl, ?_, ?_, rfl, ?_, rfl⟩
  · intro i hi
    exact slot_unique ((hinv.2 (toUint k)).1 hset) (toUint8_val_eq_toUint hk) hj hi
  · simp [List.getElem?_set_self hjv]
  · intro i hi
    simp [List.getElem?_set_ne (Ne.symm hi)]
  · simp

/-- C8: when the presence bit of `k` is clear, `getField(k)` returns 0 and hands the
store back unchanged, for every store and every `k`; in particular on the zero-value
store every `getField` returns 0. -/
theorem getField_default (s : itemFields) (k : Int) :
    (s.fieldBitset.Test (toUint k) = false → getField s k = some (s, Float64.zero)) ∧
      getField itemFields.empty k = some (itemFields.empty, Float64.zero) :=
  ⟨getField_of_clear, getField_of_clear (BitSet.Test_empty _)⟩

/-! ## Swap-remove -/

theorem swapRemove_eq {α : Type} {a : List α} {n t : Nat} {x last : α} (hn : n ≠ 0)
    (hx : a[t]? = some x) (hl : a[n - 1]? = some last) :
    swapRemove a n t = some (((a.set (n - 1) x).set t last).take (n - 1)) := by
  unfold swapRemove
  simp [hn, hx, hl]

theorem swapRemove_eq_none {α : Type} {a : List α} {n t : Nat} (h : a.length ≤ t) :
    swapRemove a n t = none := by
  unfold swapRemove
  have hx : a[t]? = none := List.getElem?_eq_none h
  split
  · rfl
  · rw [hx]
    cases a[n - 1]? <;> rfl

theorem swapRemove_spec {α : Type} {a : List α} {n t : Nat} (ht : t < n) (hn : n ≤ a.length) :
    ∃ r, swapRemove a n t = some r ∧ r.length = n - 1 ∧
      (∀ i, i < n - 1 → i ≠ t → r[i]? = a[i]?) ∧ (t < n - 1 → r[t]? = a[n - 1]?) := by
  have h1 : n - 1 < a.length := by omega
  have h2 : t < a.length := by omega
  refine ⟨_, swapRemove_eq (by omega) (List.getElem?_eq_getElem h2)
    (List.getElem?_eq_getElem h1), ?_, ?_, ?_⟩
  · simp only [List.length_take, List.length_set]; omega
  · intro i hi hit
    rw [List.getElem?_take_of_lt hi, List.getElem?_set_ne (Ne.symm hit),
      List.getElem?_set_ne (by omega)]
  · intro htn
    rw [List.getElem?_take_of_lt htn, List.getElem?_set_self (by simp; omega)]
    exact (List.getElem?_eq_getElem h1).symm

theorem take_set_of_le {α : Type} (y : α) {n m : Nat} (l : List α) (h : m ≤ n) :
    (l.set n y).take m = l.take m :=
  List.ext_getElem? fun i => by
    rw [List.getElem?_take, List.getElem?_take]
    split
    · rw [List.getElem?_set_ne (by omega)]
    · rfl

theorem perm_cons_set {α : Type} {b : List α} {t : Nat} {x : α} (y : α) (hx : b[t]? = some x) :
    List.Perm (y :: b) (x :: b.set t y) := by
  induction b generalizing t with
  | nil => simp at hx
  | cons c cs ih =>
    cases t with
    | zero =>
      simp only [List.getElem?_cons_zero, Option.some.injEq] at hx
      subst hx
      exact List.Perm.swap _ _ _
    | succ t =>
      simp only [List.getElem?_cons_succ] at hx
      exact (List.Perm.swap c y cs).trans
        (((ih hx).cons c).trans (List.Perm.swap x c _))

theorem swapRemove_perm {α : Type} {a : List α} {n t : Nat} {x : α} (ht : t < n)
    (hn : a.length = n) (hx : a[t]? = some x) {r : List α} (hr : swapRemove a n t = some r) :
    List.Perm a (x :: r) := by
  have h1 : n - 1 < a.length := by omega
  have hl := List.getElem?_eq_getElem h1
  rw [swapRemove_eq (by omega) hx hl] at hr
  simp only [Option.some.injEq] at hr
  subst hr
  have ha : a = a.take (n - 1) ++ [a[n - 1]] := by
    have := List.take_concat_get a (n - 1) h1
    rw [List.concat_eq_append] at this
    rw [this, show n - 1 + 1 = a.length by omega, List.take_length]
  by_cases htn : t = n - 1
  · subst htn
    rw [List.set_set, take_set_of_le _ _ (Nat.le_refl _)]
    rw [hl] at hx
    simp only [Option.some.injEq] at hx
    rw [← hx]
    exact (List.Perm.of_eq ha).trans (List.perm_append_singleton _ _)
  · rw [List.set_comm _ _ _ (Ne.symm htn), take_set_of_le _ _ (Nat.le_refl _), List.set_take]
    have hxb : (a.take (n - 1))[t]? = some x := by
      rw [List.getElem?_take_of_lt (by omega)]; exact hx
    exact ((List.Perm.of_eq ha).trans (List.perm_append_singleton _ _)).trans
      (perm_cons_set _ hxb)

theorem getElem?_zip {α β : Type} (a : List α) (b : List β) (i : Nat) :
    (a.zip b)[i]? = (a[i]?.map Prod.mk).bind fun g => b[i]?.map g := by
  rw [List.zip_eq_zipWith, List.getElem?_zipWith']

theorem swapRemove_zip {α β : Type} {a : List α} {b : List β} {n t : Nat} (ht : t < n)
    (ha : a.length = n) (hb : b.length = n) {ra : List α} {rb : List β}
    (hra : swapRemove a n t = some ra) (hrb : swapRemove b n t = some rb) :
    swapRemove (a.zip b) n t = some (ra.zip rb) := by
  obtain ⟨r, hr, hrl, hr1, hr2⟩ :=
    swapRemove_spec (a := a.zip b) ht (by simp [ha, hb])
  obtain ⟨ra', hra', hal, ha1, ha2⟩ := swapRemove_spec (a := a) ht (by omega)
  obtain ⟨rb', hrb', hbl, hb1, hb2⟩ := swapRemove_spec (a := b) ht (by omega)
  rw [hra] at hra'
  rw [hrb] at hrb'
  simp only [Option.some.injEq] at hra' hrb'
  subst hra' hrb'
  rw [hr]
  congr 1
  apply List.ext_getElem?
  intro i
  by_cases hi : i < n - 1
  · by_cases hit : i = t
    · subst hit
      rw [hr2 hi, getElem?_zip, getElem?_zip, ha2 hi, hb2 hi]
    · rw [hr1 i hi hit, getElem?_zip, getElem?_zip, ha1 i hi hit, hb1 i hi hit]
  · rw [List.getElem?_eq_none (by omega), List.getElem?_eq_none (by simp; omega)]

/-! ## Deleting a field -/

theorem deleteField_of_clear {s : itemFields} {k : Int}
    (h : s.fieldBitset.Test (toUint k) = false) : deleteField s k = some s := by
  simp [deleteField, h]

theorem deleteField_of_slot {s : itemFields} {k : Int} {t : Nat} {fi : List uint8}
    {fv : List Float32} (h : s.fieldBitset.Test (toUint k) = true)
    (ht : findSlot (toUint8 k) s.fieldIndexes = some t)
    (hfi : swapRemove s.fieldIndexes s.fieldIndexes.length t = some fi)
    (hfv : swapRemove s.fieldValues s.fieldIndexes.length t = some fv) :
    deleteField s k = some ⟨s.fieldBitset.SetTo (toUint k) false, fi, fv⟩ := by
  simp [deleteField, h, ht, hfi, hfv]

/-- What `deleteField` does to a tracked id whose slot is `t`, when the slices have the
same length. -/
theorem deleteField_tracked {s : itemFields} {k : Int} {t : Nat} (hlen : lengthInv s)
    (h : s.fieldBitset.Test (toUint k) = true)
    (ht : findSlot (toUint8 k) s.fieldIndexes = some t) :
    ∃ fi fv x, deleteField s k = some ⟨s.fieldBitset.SetTo (toUint k) false, fi, fv⟩ ∧
      swapRemove s.fieldIndexes s.fieldIndexes.length t = some fi ∧
      swapRemove s.fieldValues s.fieldIndexes.length t = some fv ∧
      s.fieldValues[t]? = some x ∧
      List.Perm s.fieldIndexes (toUint8 k :: fi) ∧
      List.Perm (s.fieldIndexes.zip s.fieldValues) ((toUint8 k, x) :: fi.zip fv) := by
  unfold lengthInv at hlen
  obtain ⟨htl, htu, _⟩ := findSlot_some ht
  obtain ⟨fi, hfi, -⟩ := swapRemove_spec (a := s.fieldIndexes) htl (Nat.le_refl _)
  obtain ⟨fv, hfv, -⟩ := swapRemove_spec (a := s.fieldValues) htl (by omega)
  have hx : s.fieldValues[t]? = some s.fieldValues[t] := List.getElem?_eq_getElem (by omega)
  refine ⟨fi, fv, _, deleteField_of_slot h ht hfi hfv, hfi, hfv, hx,
    swapRemove_perm htl rfl htu hfi, ?_⟩
  have hz := swapRemove_zip htl rfl hlen.symm hfi hfv
  refine swapRemove_perm htl (by simp [hlen]) ?_ hz
  rw [getElem?_zip, htu, hx]
  rfl

/-- The first slot holding `u` is the only one when `u` occurs exactly once. -/
theorem findSlot_of_getElem? {u : uint8} {xs : List uint8} {k t : Nat}
    (hc : (xs.map Fin.val).count k = 1) (hu : u.val = k) (ht : xs[t]? = some u) :
    findSlot u xs = some t := by
  obtain ⟨j, hj⟩ := findSlot_of_mem (List.getElem?_mem ht)
  rw [hj, slot_unique hc hu hj ht]

/-- C10: on a store satisfying the data-model invariants, with `n = len(fieldIndexes)`
fields and a tracked id `k` in 0..255 held in slot `t`, `deleteField(k)` clears bit `k`
and no other bit, leaves both slices with length `n - 1`, equal to the old ones on every
slot other than `t`, with slot `t` (when `t < n - 1`) holding the old last pair; the
multiset of (id, value) pairs is the old one minus the pair of `k`. -/
theorem deleteField_swap_remove (s : itemFields) (k : Int) (t : Nat) (hinv : dataModelInv s)
    (hk : validId k) (hset : s.fieldBitset.Test (toUint k) = true)
    (ht : s.fieldIndexes[t]? = some (toUint8 k)) :
    ∃ s' x, deleteField s k = some s' ∧ s.fieldValues[t]? = some x ∧
      s'.fieldBitset.Test (toUint k) = false ∧
      (∀ i : Nat, i ≠ toUint k → s'.fieldBitset.Test i = s.fieldBitset.Test i) ∧
      s'.fieldIndexes.length = s.fieldIndexes.length - 1 ∧
      s'.fieldValues.length = s.fieldIndexes.length - 1 ∧
      (∀ i, i < s.fieldIndexes.length - 1 → i ≠ t →
        s'.fieldIndexes[i]? = s.fieldIndexes[i]? ∧ s'.fieldValues[i]? = s.fieldValues[i]?) ∧
      (t < s.fieldIndexes.length - 1 →
        s'.fieldIndexes[t]? = s.fieldIndexes[s.fieldIndexes.length - 1]? ∧
        s'.fieldValues[t]? = s.fieldValues[s.fieldIndexes.length - 1]?) ∧
      (↑(s'.fieldIndexes.zip s'.fieldValues) : Multiset (uint8 × Float32)) =
        (↑(s.fieldIndexes.zip s.fieldValues) : Multiset (uint8 × Float32)).erase
          (toUint8 k, x) := by
  have hslot : findSlot (toUint8 k) s.fieldIndexes = some t :=
    findSlot_of_getElem? ((hinv.2 (toUint k)).1 hset) (toUint8_val_eq_toUint hk) ht
  have htl := (findSlot_some hslot).1
  have hlen : s.fieldIndexes.length = s.fieldValues.length := hinv.1
  obtain ⟨fi, fv, x, hdel, hfi, hfv, hx, -, hperm⟩ := deleteField_tracked hinv.1 hset hslot
  obtain ⟨fi', hfi', hil, hi1, hi2⟩ := swapRemove_spec (a := s.fieldIndexes) htl (Nat.le_refl _)
  obtain ⟨fv', hfv', hvl, hv1, hv2⟩ := swapRemove_spec (a := s.fieldValues) htl (by omega)
  rw [hfi] at hfi'
  rw [hfv] at hfv'
  simp only [Option.some.injEq] at hfi' hfv'
  subst hfi' hfv'
  refine ⟨_, x, hdel, hx, BitSet.Test_SetTo_false_self _ _,
    fun i hi => BitSet.Test_SetTo_false_ne _ hi, hil, hvl,
    fun i hi hit => ⟨hi1 i hi hit, hv1 i hi hit⟩, fun h => ⟨hi2 h, hv2 h⟩, ?_⟩
  rw [Multiset.coe_eq_coe.2 hperm, ← Multiset.cons_coe, Multiset.erase_cons_head]

/-- Concrete instance of C10: deleting id 1 from the store `[1, 2, 3] ↦ [0, 0, 9]`. -/
theorem deleteField_swap_remove_witness :
    dataModelInv store123 ∧ validId 1 ∧ store123.fieldBitset.Test (toUint 1) = true ∧
      store123.fieldIndexes[0]? = some (toUint8 1) ∧
      deleteField store123 1 =
        some ⟨(((BitSet.empty.Set 1).Set 2).Set 3).SetTo 1 false, [wrap 8 3, wrap 8 2],
          [Float64.nine.toFloat32, Float32.zero]⟩ ∧
      ∃ s' x, deleteField store123 1 = some s' ∧ store123.fieldValues[0]? = some x ∧
        s'.fieldBitset.Test (toUint 1) = false ∧
        (∀ i : Nat, i ≠ toUint 1 → s'.fieldBitset.Test i = store123.fieldBitset.Test i) ∧
        s'.fieldIndexes.length = store123.fieldIndexes.length - 1 ∧
        s'.fieldValues.length = store123.fieldIndexes.length - 1 ∧
        (∀ i, i < store123.fieldIndexes.length - 1 → i ≠ 0 →
          s'.fieldIndexes[i]? = store123.fieldIndexes[i]? ∧
          s'.fieldValues[i]? = store123.fieldValues[i]?) ∧
        (0 < store123.fieldIndexes.length - 1 →
          s'.fieldIndexes[0]? = store123.fieldIndexes[store123.fieldIndexes.length - 1]? ∧
          s'.fieldValues[0]? = store123.fieldValues[store123.fieldIndexes.length - 1]?) ∧
        (↑(s'.fieldIndexes.zip s'.fieldValues) : Multiset (uint8 × Float32)) =
          (↑(store123.fieldIndexes.zip store123.fieldValues) :
            Multiset (uint8 × Float32)).erase (toUint8 1, x) :=
  ⟨by decide, by decide, by decide, by decide, by decide,
    deleteField_swap_remove store123 1 0 (by decide) (by decide) (by decide) (by decide)⟩

/-! ## The well-formed stores -/

theorem wellFormed_empty : wellFormed itemFields.empty := by
  refine ⟨rfl, fun k => ?_, List.nodup_nil⟩
  simp [itemFields.empty, BitSet.Test_empty]

theorem dataModelInv_of_wellFormed {s : itemFields} (h : wellFormed s) : dataModelInv s := by
  obtain ⟨hlen, hmem, hnd⟩ := h
  refine ⟨hlen, fun k => ?_⟩
  have hnd' : (s.fieldIndexes.map Fin.val).Nodup := hnd.map Fin.val_injective
  rw [hmem k, List.count_eq_of_nodup hnd']
  by_cases hk : k ∈ s.fieldIndexes.map Fin.val <;> simp [hk]

theorem mem_of_tracked {s : itemFields} {k : Int} (h : wellFormed s) (hk : validId k) :
    s.fieldBitset.Test (toUint k) = true ↔ toUint8 k ∈ s.fieldIndexes := by
  rw [h.2.1 (toUint k), List.mem_map]
  constructor
  · rintro ⟨u, hu, huv⟩
    have : u = toUint8 k := Fin.ext (by rw [huv, toUint8_val_eq_toUint hk])
    rwa [← this]
  · intro hu
    exact ⟨_, hu, toUint8_val_eq_toUint hk⟩

theorem not_mem_of_clear {s : itemFields} {k : Int} (h : wellFormed s) (hk : validId k)
    (hc : s.fieldBitset.Test (toUint k) = false) : toUint8 k ∉ s.fieldIndexes := by
  intro hm
  rw [(mem_of_tracked h hk).2 hm] at hc
  cases hc

/-- `setField` on an untracked id keeps a well-formed store well-formed. -/
theorem wellFormed_append {s : itemFields} {k : Int} (v : Float32) (h : wellFormed s)
    (hk : validId k) (hc : s.fieldBitset.Test (toUint k) = false) :
    wellFormed ⟨s.fieldBitset.Set (toUint k), s.fieldIndexes ++ [toUint8 k],
      s.fieldValues ++ [v]⟩ := by
  have hnm := not_mem_of_clear h hk hc
  obtain ⟨hlen, hmem, hnd⟩ := h
  unfold lengthInv at hlen
  refine ⟨by simp [lengthInv, hlen], fun i => ?_, ?_⟩
  · simp only [List.map_append, List.map_cons, List.map_nil, List.mem_append,
      List.mem_singleton]
    by_cases hi : i = toUint k
    · subst hi
      simp [BitSet.Test_Set_self, toUint8_val_eq_toUint hk]
    · rw [BitSet.Test_Set_ne _ hi, hmem i, toUint8_val_eq_toUint hk]
      simp [hi]
  · refine List.Nodup.append hnd (List.nodup_singleton _) ?_
    intro a ha hb
    rw [List.mem_singleton] at hb
    exact hnm (hb ▸ ha)

/-- Overwriting a value keeps a well-formed store well-formed. -/
theorem wellFormed_set {s : itemFields} (j : Nat) (v : Float32) (h : wellFormed s) :
    wellFormed ⟨s.fieldBitset, s.fieldIndexes, s.fieldValues.set j v⟩ := by
  obtain ⟨hlen, hmem, hnd⟩ := h
  unfold lengthInv at hlen
  exact ⟨by simp [lengthInv, hlen], hmem, hnd⟩

/-- `setField` with a valid id returns and keeps a well-formed store well-formed. -/
theorem setField_wellFormed {s : itemFields} {k : Int} (v : Float64) (h : wellFormed s)
    (hk : validId k) : ∃ s' changed, setField s k v = some (s', changed) ∧ wellFormed s' := by
  cases hb : s.fieldBitset.Test (toUint k) with
  | false => exact ⟨_, _, setField_of_clear v hb, wellFormed_append _ h hk hb⟩
  | true =>
    obtain ⟨j, x, hj, hx⟩ := slot_of_tracked (dataModelInv_of_wellFormed h) hk hb
    exact ⟨_, _, setField_of_slot v hb hj hx, wellFormed_set _ _ h⟩

/-- `deleteField` with a valid id returns and keeps a well-formed store well-formed;
afterwards the id is neither tracked nor stored. -/
theorem deleteField_wellFormed {s : itemFields} {k : Int} (h : wellFormed s)
    (hk : validId k) :
    ∃ s', deleteField s k = some s' ∧ wellFormed s' ∧
      s'.fieldBitset.Test (toUint k) = false ∧ toUint8 k ∉ s'.fieldIndexes := by
  cases hb : s.fieldBitset.Test (toUint k) with
  | false => exact ⟨s, deleteField_of_clear hb, h, hb, not_mem_of_clear h hk hb⟩
  | true =>
    obtain ⟨j, x, hj, hx⟩ := slot_of_tracked (dataModelInv_of_wellFormed h) hk hb
    obtain ⟨fi, fv, y, hdel, hfi, hfv, -, hperm, -⟩ := deleteField_tracked h.1 hb hj
    obtain ⟨hlen, hmem, hnd⟩ := h
    unfold lengthInv at hlen
    have hjl := (findSlot_some hj).1
    obtain ⟨fi', hfi', hil, -⟩ := swapRemove_spec (a := s.fieldIndexes) hjl (Nat.le_refl _)
    obtain ⟨fv', hfv', hvl, -⟩ := swapRemove_spec (a := s.fieldValues) hjl (by omega)
    rw [hfi] at hfi'
    rw [hfv] at hfv'
    simp only [Option.some.injEq] at hfi' hfv'
    subst hfi' hfv'
    have hnd' : (toUint8 k :: fi).Nodup := hperm.nodup_iff.1 hnd
    rw [List.nodup_cons] at hnd'
    refine ⟨_, hdel, ⟨by simp [lengthInv, hil, hvl], fun i => ?_, hnd'.2⟩,
      BitSet.Test_SetTo_false_self _ _, hnd'.1⟩
    by_cases hi : i = toUint k
    · subst hi
      simp only [BitSet.Test_SetTo_false_self, Bool.false_eq_true, false_iff]
      intro hm
      obtain ⟨u, hu, huv⟩ := List.mem_map.1 hm
      have : u = toUint8 k := Fin.ext (by rw [huv, toUint8_val_eq_toUint hk])
      exact hnd'.1 (this ▸ hu)
    · rw [BitSet.Test_SetTo_false_ne _ hi, hmem i, List.mem_map, List.mem_map]
      constructor
      · rintro ⟨u, hu, huv⟩
        have hu' := hperm.mem_iff.1 hu
        rw [List.mem_cons] at hu'
        rcases hu' with rfl | hu'
        · exact absurd (huv.symm.trans (toUint8_val_eq_toUint hk)) hi
        · exact ⟨u, hu', huv⟩
      · rintro ⟨u, hu, huv⟩
        exact ⟨u, hperm.mem_iff.2 (List.mem_cons_of_mem _ hu), huv⟩

/-- Reading back after `setField` on a well-formed store. -/
theorem getField_after_setField {s : itemFields} {k : Int} (v : Float64) (h : wellFormed s)
    (hk : validId k) :
    ∃ s' changed, setField s k v = some (s', changed) ∧ getField s' k = some (s', round32 v) := by
  cases hb : s.fieldBitset.Test (toUint k) with
  | false =>
    refine ⟨_, _, setField_of_clear v hb, ?_⟩
    have hnm := not_mem_of_clear h hk hb
    refine getField_of_slot (BitSet.Test_Set_self _ _) (findSlot_append_self hnm) ?_
    have hlen : s.fieldIndexes.length = s.fieldValues.length := h.1
    simp [hlen]
  | true =>
    obtain ⟨j, x, hj, hx⟩ := slot_of_tracked (dataModelInv_of_wellFormed h) hk hb
    refine ⟨_, _, setField_of_slot v hb hj hx, ?_⟩
    have hjv : j < s.fieldValues.length := (List.getElem?_eq_some_iff.1 hx).1
    exact getField_of_slot hb hj (by simp [List.getElem?_set_self hjv])

/-! ## Round trip and deletion -/

/-- C1 as stated fails: `dupStore` satisfies the data-model invariants as worded (bit 5
is clear and 5 does not occur exactly once), 9 is exactly representable as a `float32`,
yet after `setField(5, 9)` the call `getField(5)` returns 1, the value of the first of
the older slots holding 5. -/
theorem roundtrip_fails_on_dupStore :
    dataModelInv dupStore ∧ validId 5 ∧ round32 Float64.nine = Float64.nine ∧
      setField dupStore 5 Float64.nine =
        some (⟨BitSet.empty.Set 5, [wrap 8 5, wrap 8 5, wrap 8 5],
          [Float64.one.toFloat32, Float64.two.toFloat32, Float64.nine.toFloat32]⟩, true) ∧
      getField ⟨BitSet.empty.Set 5, [wrap 8 5, wrap 8 5, wrap 8 5],
          [Float64.one.toFloat32, Float64.two.toFloat32, Float64.nine.toFloat32]⟩ 5 =
        some (⟨BitSet.empty.Set 5, [wrap 8 5, wrap 8 5, wrap 8 5],
          [Float64.one.toFloat32, Float64.two.toFloat32, Float64.nine.toFloat32]⟩,
          Float64.one) ∧
      Float64.one ≠ Float64.nine := by
  refine ⟨by decide, by decide, by decide, by decide, by decide, by decide⟩

/-- C1 (amended): on a store with equal-length slices in which bit `k` is set exactly
when `k` occurs in `fieldIndexes` and no id occurs twice, for every id in 0..255 (tracked
or not) and every `v`, `getField(k)` after `setField(k, v)` returns `round32(v)`, which
is `v` itself when `v` is exactly representable as a `float32`. -/
theorem setField_getField_roundtrip (s : itemFields) (k : Int) (v : Float64)
    (hinv : wellFormed s) (hk : validId k) :
    ∃ s' changed, setField s k v = some (s', changed) ∧
      getField s' k = some (s', round32 v) ∧
      (round32 v = v → getField s' k = some (s', v)) := by
  obtain ⟨s', c, hset, hget⟩ := getField_after_setField v hinv hk
  exact ⟨s', c, hset, hget, fun hr => by rw [hget, hr]⟩

/-- Concrete instance of the amended C1: `setField(3, 7)` on the store `[3] ↦ [5]`. -/
theorem setField_getField_roundtrip_witness :
    wellFormed store3 ∧ validId 3 ∧ round32 Float64.seven = Float64.seven ∧
      ∃ s' changed, setField store3 3 Float64.seven = some (s', changed) ∧
        getField s' 3 = some (s', round32 Float64.seven) ∧
        (round32 Float64.seven = Float64.seven → getField s' 3 = some (s', Float64.seven)) :=
  ⟨by decide, by decide, by decide,
    setField_getField_roundtrip store3 3 Float64.seven (by decide) (by decide)⟩

/-- C5 as stated fails: `dupStore` satisfies the data-model invariants as worded, but
after `deleteField(5)` the id 5 still occurs in `fieldIndexes`, and a following
`setField(5, 9)` is followed by `getField(5) = 1`, not `round32(9) = 9`. -/
theorem delete_fails_on_dupStore :
    dataModelInv dupStore ∧ validId 5 ∧ deleteField dupStore 5 = some dupStore ∧
      toUint8 5 ∈ dupStore.fieldIndexes ∧
      setField dupStore 5 Float64.nine =
        some (⟨BitSet.empty.Set 5, [wrap 8 5, wrap 8 5, wrap 8 5],
          [Float64.one.toFloat32, Float64.two.toFloat32, Float64.nine.toFloat32]⟩, true) ∧
      getField ⟨BitSet.empty.Set 5, [wrap 8 5, wrap 8 5, wrap 8 5],
          [Float64.one.toFloat32, Float64.two.toFloat32, Float64.nine.toFloat32]⟩ 5 =
        some (⟨BitSet.empty.Set 5, [wrap 8 5, wrap 8 5, wrap 8 5],
          [Float64.one.toFloat32, Float64.two.toFloat32, Float64.nine.toFloat32]⟩,
          Float64.one) ∧
      round32 Float64.nine = Float64.nine ∧ Float64.one ≠ Float64.nine := by
  refine ⟨by decide, by decide, by decide, by decide, by decide, by decide, by decide,
    by decide⟩

/-- C5 (amended): on a store with equal-length slices in which bit `k` is set exactly
when `k` occurs in `fieldIndexes` and no id occurs twice, for every id in 0..255, after
`deleteField(k)` the call `getField(k)` returns 0, bit `k` is clear and `k` does not
occur in `fieldIndexes`; a following `setField(k, v)` returns `v != 0`, appends exactly
one slot, and `getField(k)` then returns `round32(v)`. -/
theorem deleteField_restores_default (s : itemFields) (k : Int) (v : Float64)
    (hinv : wellFormed s) (hk : validId k) :
    ∃ s1 s2, deleteField s k = some s1 ∧
      getField s1 k = some (s1, Float64.zero) ∧
      s1.fieldBitset.Test (toUint k) = false ∧
      toUint8 k ∉ s1.fieldIndexes ∧
      setField s1 k v = some (s2, v.ne Float64.zero) ∧
      s2.fieldIndexes = s1.fieldIndexes ++ [toUint8 k] ∧
      s2.fieldValues = s1.fieldValues ++ [v.toFloat32] ∧
      getField s2 k = some (s2, round32 v) := by
  obtain ⟨s1, hdel, hwf, hclear, hnm⟩ := deleteField_wellFormed hinv hk
  obtain ⟨s2, c, hset, hget⟩ := getField_after_setField v hwf hk
  have hset' := setField_of_clear v hclear
  rw [hset'] at hset
  simp only [Option.some.injEq, Prod.mk.injEq] at hset
  obtain ⟨hs2, -⟩ := hset
  subst hs2
  exact ⟨s1, _, hdel, getField_of_clear hclear, hclear, hnm, hset', rfl, rfl, hget⟩

/-- Concrete instance of the amended C5: `deleteField(3)` on the store `[3] ↦ [5]`,
followed by `setField(3, 7)`. -/
theorem deleteField_restores_default_witness :
    wellFormed store3 ∧ validId 3 ∧
      ∃ s1 s2, deleteField store3 3 = some s1 ∧
        getField s1 3 = some (s1, Float64.zero) ∧
        s1.fieldBitset.Test (toUint 3) = false ∧
        toUint8 3 ∉ s1.fieldIndexes ∧
        setField s1 3 Float64.seven = some (s2, Float64.seven.ne Float64.zero) ∧
        s2.fieldIndexes = s1.fieldIndexes ++ [toUint8 3] ∧
        s2.fieldValues = s1.fieldValues ++ [Float64.seven.toFloat32] ∧
        getField s2 3 = some (s2, round32 Float64.seven) :=
  ⟨by decide, by decide,
    deleteField_restores_default store3 3 Float64.seven (by decide) (by decide)⟩

/-- Concrete instance of C6: `setField(3, 5)` on the zero-value store. -/
theorem setField_untracked_witness :
    validId 3 ∧ itemFields.empty.fieldBitset.Test (toUint 3) = false ∧
      setField itemFields.empty 3 Float64.five = some (store3, true) ∧
      ∃ s' changed, setField itemFields.empty 3 Float64.five = some (s', changed) ∧
        s'.fieldBitset.Test (toUint 3) = true ∧
        (∀ i : Nat, i ≠ toUint 3 →
          s'.fieldBitset.Test i = itemFields.empty.fieldBitset.Test i) ∧
        s'.fieldIndexes = itemFields.empty.fieldIndexes ++ [toUint8 3] ∧
        (toUint8 3).val = (3 : Int).toNat ∧
        s'.fieldValues = itemFields.empty.fieldValues ++ [Float64.five.toFloat32] ∧
        (changed = true ↔ Float64.five.ne Float64.zero = true) :=
  ⟨by decide, by decide, by decide,
    setField_untracked itemFields.empty 3 Float64.five (by decide) (by decide)⟩

/-- Concrete instance of C7: `setField(3, 7)` on the store `[3] ↦ [5]`. -/
theorem setField_tracked_witness :
    dataModelInv store3 ∧ validId 3 ∧ store3.fieldBitset.Test (toUint 3) = true ∧
      setField store3 3 Float64.seven =
        some (⟨BitSet.empty.Set 3, [wrap 8 3], [Float64.seven.toFloat32]⟩, true) ∧
      ∃ s' changed old t, getField store3 3 = some (store3, old) ∧
        setField store3 3 Float64.seven = some (s', changed) ∧
        (changed = true ↔ old.ne Float64.seven = true) ∧
        store3.fieldIndexes[t]? = some (toUint8 3) ∧
        (∀ i, store3.fieldIndexes[i]? = some (toUint8 3) → i = t) ∧
        s'.fieldValues = store3.fieldValues.set t Float64.seven.toFloat32 ∧
        s'.fieldValues[t]? = some Float64.seven.toFloat32 ∧
        (∀ i, i ≠ t → s'.fieldValues[i]? = store3.fieldValues[i]?) ∧
        s'.fieldIndexes = store3.fieldIndexes ∧
        s'.fieldValues.length = store3.fieldValues.length ∧
        s'.fieldBitset = store3.fieldBitset :=
  ⟨by decide, by decide, by decide, by decide,
    setField_tracked store3 3 Float64.seven (by decide) (by decide) (by decide)⟩

/-! ## The batch loop -/

theorem toUint_injective {k k' : Int} (hk : validId k) (hk' : validId k')
    (h : toUint k = toUint k') : k = k' := by
  rw [toUint_of_valid hk, toUint_of_valid hk'] at h
  obtain ⟨h0, _⟩ := hk
  obtain ⟨h0', _⟩ := hk'
  omega

theorem toUint8_injective {k k' : Int} (hk : validId k) (hk' : validId k')
    (h : toUint8 k = toUint8 k') : k = k' := by
  apply toUint_injective hk hk'
  rw [← toUint8_val_eq_toUint hk, ← toUint8_val_eq_toUint hk', h]

theorem countNew_Set {b : BitSet} {k : Int} {ks : List Int} (hk : validId k)
    (hks : ∀ k' ∈ ks, validId k') (hnm : k ∉ ks) :
    countNew (b.Set (toUint k)) ks = countNew b ks := by
  induction ks with
  | nil => rfl
  | cons a as ih =>
    simp only [List.mem_cons, not_or] at hnm
    have ha : toUint a ≠ toUint k := fun h =>
      hnm.1 (toUint_injective hk (hks a (List.mem_cons_self _ _)) h.symm)
    unfold countNew
    rw [BitSet.Test_Set_ne _ ha, ih (fun k' hk' => hks k' (List.mem_cons_of_mem _ hk')) hnm.2]

theorem take_set_succ {α : Type} (y : α) {j : Nat} (l : List α) (h : j < l.length) :
    (l.set j y).take (j + 1) = l.take j ++ [y] := by
  rw [List.take_succ, take_set_of_le _ _ (Nat.le_refl _), List.getElem?_set_self h]
  rfl

/-- The second loop of `setFields` simulates the sequence of `setField` calls. -/
theorem setFieldsLoop_simulates (fi : List uint8) (ks : List Int) :
    ∀ (vals : List Float64) (st : loopState),
      ks.Nodup → (∀ k ∈ ks, validId k) → vals.length = ks.length →
      (∀ k ∈ ks, st.fieldBitset.Test (toUint k) = true →
        ∃ t, findSlot (toUint8 k) fi = some t ∧ t < st.fieldValues.length) →
      st.j + countNew st.fieldBitset ks ≤ st.newFields.length →
      st.newValues.length = st.newFields.length →
      ∃ st' n, setFieldsLoop fi ks vals st = some st' ∧
        setFieldSeq (seqStore fi st) ks vals = some (seqStore fi st', n) ∧
        st'.updatedFields = st.updatedFields + n ∧
        st'.j = st.j + countNew st.fieldBitset ks ∧
        st'.newFields.length = st.newFields.length ∧
        st'.newValues.length = st.newValues.length := by
  induction ks with
  | nil =>
    intro vals st _ _ _ _ _ _
    exact ⟨st, 0, rfl, by simp [setFieldSeq], rfl, rfl, rfl, rfl⟩
  | cons k ks ih =>
    intro vals st hnd hv hlen hslot hcap hnv
    obtain ⟨v, vs, rfl⟩ : ∃ v vs, vals = v :: vs := by
      cases vals with
      | nil => simp at hlen
      | cons v vs => exact ⟨v, vs, rfl⟩
    have hlen' : vs.length = ks.length := by simpa using hlen
    rw [List.nodup_cons] at hnd
    have hv' : ∀ k' ∈ ks, validId k' := fun k' hk' => hv k' (List.mem_cons_of_mem _ hk')
    have hvk : validId k := hv k (List.mem_cons_self _ _)
    cases hb : st.fieldBitset.Test (toUint k) with
    | true =>
      obtain ⟨t, ht, htl⟩ := hslot k (List.mem_cons_self _ _) hb
      have hx : st.fieldValues[t]? = some st.fieldValues[t] := List.getElem?_eq_getElem htl
      have hcn : countNew st.fieldBitset (k :: ks) = countNew st.fieldBitset ks := by
        simp [countNew, hb]
      obtain ⟨st', n, h1, h2, h3, h4, h5, h6⟩ := ih vs
        { st with
          fieldValues := st.fieldValues.set t v.toFloat32,
          updatedFields := st.updatedFields + (if st.fieldValues[t].toFloat64.ne v then 1 else 0) }
        hnd.2 hv' hlen'
        (fun k' hk' hT => by
          obtain ⟨t', ht', htl'⟩ := hslot k' (List.mem_cons_of_mem _ hk') hT
          exact ⟨t', ht', by simpa using htl'⟩)
        (by rw [hcn] at hcap; exact hcap) hnv
      refine ⟨st', (if st.fieldValues[t].toFloat64.ne v then 1 else 0) + n, ?_, ?_, ?_, ?_,
        h5, h6⟩
      · rw [← h1]
        conv_lhs => unfold setFieldsLoop
        simp [hb, ht, hx]
      · have hseq : setField (seqStore fi st) k v =
            some (seqStore fi { st with
              fieldValues := st.fieldValues.set t v.toFloat32,
              updatedFields :=
                st.updatedFields + (if st.fieldValues[t].toFloat64.ne v then 1 else 0) },
              st.fieldValues[t].toFloat64.ne v) := by
          have hxs : (seqStore fi st).fieldValues[t]? = some st.fieldValues[t] := by
            simp only [seqStore]
            rw [List.getElem?_append_left htl]; exact hx
          rw [setField_of_slot v (s := seqStore fi st) hb (findSlot_append_left _ ht) hxs]
          simp only [seqStore, List.set_append_left _ _ htl]
        unfold setFieldSeq
        rw [hseq]
        simp only
        rw [h2]
      · rw [h3]; simp only; omega
      · rw [h4, hcn]
    | false =>
      have hcn : countNew st.fieldBitset (k :: ks) = countNew st.fieldBitset ks + 1 := by
        simp [countNew, hb]
      have hj : st.j < st.newFields.length := by omega
      have hj' : st.j < st.newValues.length := by omega
      obtain ⟨st', n, h1, h2, h3, h4, h5, h6⟩ := ih vs
        { fieldBitset := st.fieldBitset.Set (toUint k),
          fieldValues := st.fieldValues,
          newFields := st.newFields.set st.j (toUint8 k),
          newValues := st.newValues.set st.j v.toFloat32,
          j := st.j + 1,
          updatedFields := st.updatedFields + (if v.ne Float64.zero then 1 else 0) }
        hnd.2 hv' hlen'
        (fun k' hk' hT => by
          have hne : toUint k' ≠ toUint k := fun h =>
            hnd.1 (toUint_injective hvk (hv' k' hk') h.symm ▸ hk')
          rw [BitSet.Test_Set_ne _ hne] at hT
          exact hslot k' (List.mem_cons_of_mem _ hk') hT)
        (by
          simp only [List.length_set]
          rw [countNew_Set hvk hv' hnd.1]
          omega)
        (by simp [hnv])
      rw [countNew_Set hvk hv' hnd.1] at h4
      simp only [List.length_set] at h5 h6
      refine ⟨st', (if v.ne Float64.zero then 1 else 0) + n, ?_, ?_, ?_, ?_, h5, h6⟩
      · rw [← h1]
        conv_lhs => unfold setFieldsLoop
        simp [hb, hj, hj']
      · have hseq : setField (seqStore fi st) k v =
            some (seqStore fi
              { fieldBitset := st.fieldBitset.Set (toUint k),
                fieldValues := st.fieldValues,
                newFields := st.newFields.set st.j (toUint8 k),
                newValues := st.newValues.set st.j v.toFloat32,
                j := st.j + 1,
                updatedFields := st.updatedFields + (if v.ne Float64.zero then 1 else 0) },
              v.ne Float64.zero) := by
          rw [setField_of_clear v (s := seqStore fi st) hb]
          simp only [seqStore, take_set_succ _ _ hj, take_set_succ _ _ hj',
            List.append_assoc]
        unfold setFieldSeq
        rw [hseq]
        simp only
        rw [h2]
      · rw [h3]; simp only; omega
      · rw [h4, hcn]; simp only; omega

theorem slotsPresent_of_dataModelInv {s : itemFields} {ks : List Int} (h : dataModelInv s)
    (hv : ∀ k ∈ ks, validId k) : slotsPresent s ks := by
  intro k hk hT
  obtain ⟨t, x, ht, hx⟩ := slot_of_tracked h (hv k hk) hT
  exact ⟨t, ht, (List.getElem?_eq_some_iff.1 hx).1⟩

/-- On a duplicate-free list of valid ids whose tracked members have slots, `setFields`
returns what the sequence of `setField` calls returns. -/
theorem setFields_eq_setFieldSeq {s : itemFields} {ks : List Int} {vals : List Float64}
    (hnd : ks.Nodup) (hv : ∀ k ∈ ks, validId k) (hlen : vals.length = ks.length)
    (hslot : slotsPresent s ks) :
    ∃ s' n, setFields s ks vals = some (s', n) ∧ setFieldSeq s ks vals = some (s', n) := by
  obtain ⟨st', n, h1, h2, h3, h4, h5, h6⟩ := setFieldsLoop_simulates s.fieldIndexes ks vals
    ⟨s.fieldBitset, s.fieldValues,
      List.replicate (countNew s.fieldBitset ks) (wrap 8 0),
      List.replicate (countNew s.fieldBitset ks) Float32.zero, 0, 0⟩
    hnd hv hlen hslot (by simp) (by simp)
  simp only [List.length_replicate, Nat.zero_add] at h3 h4 h5 h6
  have hs : seqStore s.fieldIndexes
      ⟨s.fieldBitset, s.fieldValues,
        List.replicate (countNew s.fieldBitset ks) (wrap 8 0),
        List.replicate (countNew s.fieldBitset ks) Float32.zero, 0, 0⟩ = s := by
    simp [seqStore]
  rw [hs] at h2
  have hs' : seqStore s.fieldIndexes st' =
      ⟨st'.fieldBitset, s.fieldIndexes ++ st'.newFields,
        st'.fieldValues ++ st'.newValues⟩ := by
    simp only [seqStore]
    rw [List.take_of_length_le (by omega), List.take_of_length_le (by omega)]
  rw [hs'] at h2
  refine ⟨_, n, ?_, h2⟩
  unfold setFields
  simp only [h1]
  by_cases hN : countNew s.fieldBitset ks > 0
  · simp [hN, h3]
  · have h0 : st'.newFields = [] := List.length_eq_zero.1 (by omega)
    have h0' : st'.newValues = [] := List.length_eq_zero.1 (by omega)
    simp [hN, h3, h0, h0']

/-! ## What one `setField` leaves alone -/

theorem storedValue_of_clear {s : itemFields} {k : Int}
    (h : s.fieldBitset.Test (toUint k) = false) : storedValue s k = some Float64.zero := by
  simp [storedValue, getField_of_clear h]

theorem storedValue_of_slot {s : itemFields} {k : Int} {j : Nat} {x : Float32}
    (h : s.fieldBitset.Test (toUint k) = true)
    (hj : findSlot (toUint8 k) s.fieldIndexes = some j) (hx : s.fieldValues[j]? = some x) :
    storedValue s k = some x.toFloat64 := by
  simp [storedValue, getField_of_slot h hj hx]

/-- `setField(k, v)` changes neither the presence bit nor the value read for another
valid id `k'`, and a slot `k'` had is still there. -/
theorem setField_frame {s s1 : itemFields} {k k' : Int} {v : Float64} {changed : Bool}
    (hk : validId k) (hk' : validId k') (hne : k ≠ k')
    (h : setField s k v = some (s1, changed)) (hslot : slotsPresent s [k']) :
    s1.fieldBitset.Test (toUint k') = s.fieldBitset.Test (toUint k') ∧
      storedValue s1 k' = storedValue s k' ∧ slotsPresent s1 [k'] := by
  have hune : toUint k' ≠ toUint k := fun e => hne (toUint_injective hk hk' e.symm)
  have hu8 : toUint8 k ≠ toUint8 k' := fun e => hne (toUint8_injective hk hk' e)
  cases hb : s.fieldBitset.Test (toUint k) with
  | false =>
    rw [setField_of_clear v hb] at h
    simp only [Option.some.injEq, Prod.mk.injEq] at h
    obtain ⟨rfl, -⟩ := h
    have hT : (s.fieldBitset.Set (toUint k)).Test (toUint k') = s.fieldBitset.Test (toUint k') :=
      BitSet.Test_Set_ne _ hune
    refine ⟨hT, ?_, ?_⟩
    · cases hb' : s.fieldBitset.Test (toUint k') with
      | false =>
        rw [storedValue_of_clear hb', storedValue_of_clear (by rw [← hb']; exact hT)]
      | true =>
        obtain ⟨t, ht, htl⟩ := hslot k' (List.mem_singleton_self _) hb'
        have hx : s.fieldValues[t]? = some s.fieldValues[t] := List.getElem?_eq_getElem htl
        rw [storedValue_of_slot hb' ht hx]
        exact storedValue_of_slot (by rw [← hb']; exact hT) (findSlot_append_left _ ht)
          (by simp only; rw [List.getElem?_append_left htl]; exact hx)
    · intro a ha hTa
      rw [List.mem_singleton] at ha
      subst ha
      rw [hT] at hTa
      obtain ⟨t, ht, htl⟩ := hslot a (List.mem_singleton_self _) hTa
      exact ⟨t, findSlot_append_left _ ht, by simp; omega⟩
  | true =>
    unfold setField at h
    simp only [hb, if_true] at h
    cases hj : findSlot (toUint8 k) s.fieldIndexes with
    | none => simp [hj] at h
    | some j =>
      cases hx : s.fieldValues[j]? with
      | none => simp [hj, hx] at h
      | some x =>
        simp only [hj, hx, Option.some.injEq, Prod.mk.injEq] at h
        obtain ⟨rfl, -⟩ := h
        refine ⟨rfl, ?_, ?_⟩
        · cases hb' : s.fieldBitset.Test (toUint k') with
          | false =>
            rw [storedValue_of_clear hb']
            exact storedValue_of_clear hb'
          | true =>
            obtain ⟨t, ht, htl⟩ := hslot k' (List.mem_singleton_self _) hb'
            have hx' : s.fieldValues[t]? = some s.fieldValues[t] :=
              List.getElem?_eq_getElem htl
            have htj : j ≠ t := by
              intro e
              subst e
              have h1 := (findSlot_some hj).2.1
              have h2 := (findSlot_some ht).2.1
              rw [h1] at h2
              exact hu8 (Option.some.inj h2)
            rw [storedValue_of_slot hb' ht hx']
            exact storedValue_of_slot hb' ht
              (by simp only; rw [List.getElem?_set_ne htj]; exact hx')
        · intro a ha hTa
          rw [List.mem_singleton] at ha
          subst ha
          obtain ⟨t, ht, htl⟩ := hslot a (List.mem_singleton_self _) hTa
          exact ⟨t, ht, by simpa using htl⟩

theorem setField_some_of_slotsPresent {s : itemFields} {k : Int} (v : Float64)
    (hslot : slotsPresent s [k]) : ∃ s1 changed, setField s k v = some (s1, changed) ∧
      changed = (if s.fieldBitset.Test (toUint k) then
        (match storedValue s k with
          | some old => old.ne v
          | none => false)
        else v.ne Float64.zero) := by
  cases hb : s.fieldBitset.Test (toUint k) with
  | false => exact ⟨_, _, setField_of_clear v hb, by simp⟩
  | true =>
    obtain ⟨t, ht, htl⟩ := hslot k (List.mem_singleton_self _) hb
    have hx : s.fieldValues[t]? = some s.fieldValues[t] := List.getElem?_eq_getElem htl
    exact ⟨_, _, setField_of_slot v hb ht hx, by simp [storedValue_of_slot hb ht hx]⟩

/-- The number of `setField` calls of the sequence that return true. -/
theorem setFieldSeq_count (ks : List Int) :
    ∀ (vals : List Float64) (s : itemFields),
      ks.Nodup → (∀ k ∈ ks, validId k) → vals.length = ks.length → slotsPresent s ks →
      ∃ s', setFieldSeq s ks vals =
        some (s', countChangedTracked s ks vals + countNonZeroNew s ks vals) := by
  induction ks with
  | nil =>
    intro vals s _ _ _ _
    exact ⟨s, by simp [setFieldSeq, countChangedTracked, countNonZeroNew]⟩
  | cons k ks ih =>
    intro vals s hnd hv hlen hslot
    obtain ⟨v, vs, rfl⟩ : ∃ v vs, vals = v :: vs := by
      cases vals with
      | nil => simp at hlen
      | cons v vs => exact ⟨v, vs, rfl⟩
    have hlen' : vs.length = ks.length := by simpa using hlen
    rw [List.nodup_cons] at hnd
    have hv' : ∀ k' ∈ ks, validId k' := fun k' hk' => hv k' (List.mem_cons_of_mem _ hk')
    have hvk : validId k := hv k (List.mem_cons_self _ _)
    have hsk : slotsPresent s [k] := fun a ha => by
      rw [List.mem_singleton] at ha
      subst ha
      exact hslot a (List.mem_cons_self _ _)
    obtain ⟨s1, c, hset, hc⟩ := setField_some_of_slotsPresent v hsk
    have hframe : ∀ k' ∈ ks,
        s1.fieldBitset.Test (toUint k') = s.fieldBitset.Test (toUint k') ∧
          storedValue s1 k' = storedValue s k' ∧ slotsPresent s1 [k'] := fun k' hk' =>
      setField_frame hvk (hv' k' hk') (fun e => hnd.1 (e ▸ hk')) hset
        (fun a ha => by
          rw [List.mem_singleton] at ha
          subst ha
          exact hslot a (List.mem_cons_of_mem _ hk'))
    obtain ⟨s', hs'⟩ := ih vs s1 hnd.2 hv' hlen'
      (fun k' hk' => (hframe k' hk').2.2 k' (List.mem_singleton_self _))
    have e1 : countChangedTracked s1 ks vs = countChangedTracked s ks vs := by
      unfold countChangedTracked
      apply List.countP_congr
      rintro ⟨a, b⟩ hab
      obtain ⟨h1, h2, -⟩ := hframe a (List.of_mem_zip hab).1
      simp only [h1, h2]
    have e2 : countNonZeroNew s1 ks vs = countNonZeroNew s ks vs := by
      unfold countNonZeroNew
      apply List.countP_congr
      rintro ⟨a, b⟩ hab
      obtain ⟨h1, -, -⟩ := hframe a (List.of_mem_zip hab).1
      simp only [h1]
    refine ⟨s', ?_⟩
    unfold setFieldSeq
    rw [hset]
    simp only
    rw [hs', e1, e2]
    simp only [Option.some.injEq, Prod.mk.injEq, true_and]
    subst hc
    unfold countChangedTracked countNonZeroNew
    simp only [List.zip_cons_cons, List.countP_cons]
    cases hb : s.fieldBitset.Test (toUint k) <;> simp <;> omega

/-! ## Batches -/

/-- C2: on a store satisfying the data-model invariants, for pairwise distinct ids in
0..255 and as many values, `setFields(ks, vals)` and the sequence of calls
`setField(ks[0], vals[0]); ...` both return, end in the same store, hence in stores on
which `getField` returns the same for every id, and the integer `setFields` returns is
the number of `setField` calls that returned true. -/
theorem setFields_batch_equivalence (s : itemFields) (ks : List Int) (vals : List Float64)
    (hinv : dataModelInv s) (hv : ∀ k ∈ ks, validId k) (hnd : ks.Nodup)
    (hlen : vals.length = ks.length) :
    ∃ s1 s2 n, setFields s ks vals = some (s1, n) ∧ setFieldSeq s ks vals = some (s2, n) ∧
      s1 = s2 ∧ ∀ k : Int, storedValue s1 k = storedValue s2 k := by
  obtain ⟨s', n, h1, h2⟩ :=
    setFields_eq_setFieldSeq hnd hv hlen (slotsPresent_of_dataModelInv hinv hv)
  exact ⟨s', s', n, h1, h2, rfl, fun _ => rfl⟩

/-- Concrete instance of C2: the batch `[3, 4] ↦ [7, 0.1]` on the store `[3] ↦ [5]`. -/
theorem setFields_batch_equivalence_witness :
    dataModelInv store3 ∧ (∀ k ∈ [(3 : Int), 4], validId k) ∧ [(3 : Int), 4].Nodup ∧
      setFields store3 [3, 4] [Float64.seven, Float64.tenth] =
        some (⟨(BitSet.empty.Set 3).Set 4, [wrap 8 3, wrap 8 4],
          [Float64.seven.toFloat32, Float64.tenth.toFloat32]⟩, 2) ∧
      ∃ s1 s2 n, setFields store3 [3, 4] [Float64.seven, Float64.tenth] = some (s1, n) ∧
        setFieldSeq store3 [3, 4] [Float64.seven, Float64.tenth] = some (s2, n) ∧
        s1 = s2 ∧ ∀ k : Int, storedValue s1 k = storedValue s2 k :=
  ⟨by decide, by decide, by decide, by decide,
    setFields_batch_equivalence store3 [3, 4] [Float64.seven, Float64.tenth]
      (by decide) (by decide) (by decide) rfl⟩

theorem countChangedTracked_empty (ks : List Int) (vals : List Float64) :
    countChangedTracked itemFields.empty ks vals = 0 := by
  unfold countChangedTracked
  rw [List.countP_eq_zero]
  intro p _
  simp [itemFields.empty, BitSet.Test_empty]

theorem countNonZeroNew_empty (ks : List Int) (vals : List Float64)
    (hlen : vals.length = ks.length) :
    countNonZeroNew itemFields.empty ks vals = vals.countP fun v => v.ne Float64.zero := by
  unfold countNonZeroNew
  have h := List.map_snd_zip ks vals (by omega)
  conv_rhs => rw [← h, List.countP_map]
  apply List.countP_congr
  intro p _
  simp [itemFields.empty, BitSet.Test_empty]

/-- C9: on a store satisfying the data-model invariants, for a duplicate-free list of
ids in 0..255 and as many values, `setFields` returns the number of positions whose id
was tracked with a stored value differing from the new one, plus the number of positions
whose id was not tracked and whose value is non-zero. On the zero-value store that is
the number of non-zero entries of `vals`; `setFields([1,2,3],[0,0,9])` returns 1 and
afterwards `getField` gives 0, 0 and 9. -/
theorem setFields_return_value :
    (∀ (s : itemFields) (ks : List Int) (vals : List Float64),
      dataModelInv s → (∀ k ∈ ks, validId k) → ks.Nodup → vals.length = ks.length →
      ∃ s', setFields s ks vals =
        some (s', countChangedTracked s ks vals + countNonZeroNew s ks vals)) ∧
    (∀ (ks : List Int) (vals : List Float64),
      (∀ k ∈ ks, validId k) → ks.Nodup → vals.length = ks.length →
      ∃ s', setFields itemFields.empty ks vals =
        some (s', vals.countP fun v => v.ne Float64.zero)) ∧
    (setFields itemFields.empty [1, 2, 3] [Float64.zero, Float64.zero, Float64.nine] =
        some (store123, 1) ∧
      getField store123 1 = some (store123, Float64.zero) ∧
      getField store123 2 = some (store123, Float64.zero) ∧
      getField store123 3 = some (store123, Float64.nine)) := by
  have general : ∀ (s : itemFields) (ks : List Int) (vals : List Float64),
      dataModelInv s → (∀ k ∈ ks, validId k) → ks.Nodup → vals.length = ks.length →
      ∃ s', setFields s ks vals =
        some (s', countChangedTracked s ks vals + countNonZeroNew s ks vals) := by
    intro s ks vals hinv hv hnd hlen
    have hslot := slotsPresent_of_dataModelInv hinv hv
    obtain ⟨s', n, h1, h2⟩ := setFields_eq_setFieldSeq hnd hv hlen hslot
    obtain ⟨s'', h3⟩ := setFieldSeq_count ks vals s hnd hv hlen hslot
    rw [h2] at h3
    simp only [Option.some.injEq, Prod.mk.injEq] at h3
    exact ⟨s', by rw [h1, h3.2]⟩
  refine ⟨general, ?_, by decide, by decide, by decide, by decide⟩
  intro ks vals hv hnd hlen
  obtain ⟨s', h⟩ := general itemFields.empty ks vals
    (dataModelInv_of_wellFormed wellFormed_empty) hv hnd hlen
  rw [countChangedTracked_empty, countNonZeroNew_empty ks vals hlen, Nat.zero_add] at h
  exact ⟨s', h⟩

/-- Concrete instance of C9: the batch `[3, 4, 5] ↦ [5, 0.1, 0]` on the store
`[3] ↦ [5]` updates one field. -/
theorem setFields_return_value_witness :
    dataModelInv store3 ∧ (∀ k ∈ [(3 : Int), 4, 5], validId k) ∧ [(3 : Int), 4, 5].Nodup ∧
      countChangedTracked store3 [3, 4, 5] [Float64.five, Float64.tenth, Float64.zero] = 0 ∧
      countNonZeroNew store3 [3, 4, 5] [Float64.five, Float64.tenth, Float64.zero] = 1 ∧
      ∃ s', setFields store3 [3, 4, 5] [Float64.five, Float64.tenth, Float64.zero] =
        some (s', countChangedTracked store3 [3, 4, 5]
            [Float64.five, Float64.tenth, Float64.zero] +
          countNonZeroNew store3 [3, 4, 5] [Float64.five, Float64.tenth, Float64.zero]) :=
  ⟨by decide, by decide, by decide, by decide, by decide,
    setFields_return_value.1 store3 [3, 4, 5] [Float64.five, Float64.tenth, Float64.zero]
      (by decide) (by decide) (by decide) rfl⟩

/-! ## A repeated set -/

/-- C4: `setField(3, 0.1)` twice on the zero-value store. The first call returns true;
the second returns true as well, although the stored `float32` is left as it was: the
rounded old value `float64(float32(0.1))` is compared with the unrounded argument. -/
theorem setField_twice_tenth :
    setField itemFields.empty 3 Float64.tenth =
        some (⟨BitSet.empty.Set 3, [wrap 8 3], [Float64.tenth.toFloat32]⟩, true) ∧
      setField ⟨BitSet.empty.Set 3, [wrap 8 3], [Float64.tenth.toFloat32]⟩ 3 Float64.tenth =
        some (⟨BitSet.empty.Set 3, [wrap 8 3], [Float64.tenth.toFloat32]⟩, true) ∧
      round32 Float64.tenth = Float64.ofBits 0x3FB99999A0000000 ∧
      round32 Float64.tenth ≠ Float64.tenth := by
  refine ⟨by decide, by decide, by decide, by decide⟩

/-! ## The presence invariant -/

theorem setFieldSeq_wellFormed (ks : List Int) :
    ∀ (vals : List Float64) (s : itemFields),
      wellFormed s → (∀ k ∈ ks, validId k) → vals.length = ks.length →
      ∃ s' n, setFieldSeq s ks vals = some (s', n) ∧ wellFormed s' := by
  induction ks with
  | nil =>
    intro vals s h _ _
    exact ⟨s, 0, by simp [setFieldSeq], h⟩
  | cons k ks ih =>
    intro vals s h hv hlen
    obtain ⟨v, vs, rfl⟩ : ∃ v vs, vals = v :: vs := by
      cases vals with
      | nil => simp at hlen
      | cons v vs => exact ⟨v, vs, rfl⟩
    obtain ⟨s1, c, hset, h1⟩ := setField_wellFormed v h (hv k (List.mem_cons_self _ _))
    obtain ⟨s', n, hseq, h'⟩ := ih vs s1 h1
      (fun k' hk' => hv k' (List.mem_cons_of_mem _ hk')) (by simpa using hlen)
    refine ⟨s', (if c then 1 else 0) + n, ?_, h'⟩
    unfold setFieldSeq
    rw [hset]
    simp only
    rw [hseq]

/-- `setFields` with a duplicate-free list of valid ids and as many values returns and
keeps a well-formed store well-formed. -/
theorem setFields_wellFormed {s : itemFields} {ks : List Int} {vals : List Float64}
    (h : wellFormed s) (hv : ∀ k ∈ ks, validId k) (hnd : ks.Nodup)
    (hlen : vals.length = ks.length) :
    ∃ s' n, setFields s ks vals = some (s', n) ∧ wellFormed s' := by
  obtain ⟨s', n, h1, h2⟩ := setFields_eq_setFieldSeq hnd hv hlen
    (slotsPresent_of_dataModelInv (dataModelInv_of_wellFormed h) hv)
  obtain ⟨s'', n', h3, h4⟩ := setFieldSeq_wellFormed ks vals s h hv hlen
  rw [h2] at h3
  simp only [Option.some.injEq, Prod.mk.injEq] at h3
  exact ⟨s', n, h1, h3.1 ▸ h4⟩

/-- Every reachable store is well-formed. -/
theorem wellFormed_of_reachable {s : itemFields} (h : Reachable s) : wellFormed s := by
  induction h with
  | empty => exact wellFormed_empty
  | setField _ hk hset ih =>
    obtain ⟨s', c, h1, h2⟩ := setField_wellFormed _ ih hk
    rw [hset] at h1
    simp only [Option.some.injEq, Prod.mk.injEq] at h1
    exact h1.1 ▸ h2
  | deleteField _ hk hdel ih =>
    obtain ⟨s', h1, h2, -⟩ := deleteField_wellFormed ih hk
    rw [hdel] at h1
    simp only [Option.some.injEq] at h1
    exact h1 ▸ h2
  | setFields _ hv hnd hlen hset ih =>
    obtain ⟨s', n, h1, h2⟩ := setFields_wellFormed ih hv hnd hlen
    rw [hset] at h1
    simp only [Option.some.injEq, Prod.mk.injEq] at h1
    exact h1.1 ▸ h2

/-- C3 as stated fails: the presence predicate as worded holds of `dupStore` (bit 5 is
clear, 5 occurs twice) but not of the store `setField(5, 9)` leaves, where bit 5 is set
and 5 occurs three times. -/
theorem presenceInv_not_preserved_on_dupStore :
    presenceInv dupStore ∧ validId 5 ∧
      setField dupStore 5 Float64.nine =
        some (⟨BitSet.empty.Set 5, [wrap 8 5, wrap 8 5, wrap 8 5],
          [Float64.one.toFloat32, Float64.two.toFloat32, Float64.nine.toFloat32]⟩, true) ∧
      ¬ presenceInv ⟨BitSet.empty.Set 5, [wrap 8 5, wrap 8 5, wrap 8 5],
          [Float64.one.toFloat32, Float64.two.toFloat32, Float64.nine.toFloat32]⟩ := by
  refine ⟨by decide, by decide, by decide, by decide⟩

/-- C3 (amended): the predicate "equal-length slices, bit `k` set exactly when `k`
occurs in `fieldIndexes`, no id occurring twice" holds of the zero-value store and is
kept by `setField` and `deleteField` for ids in 0..255 and by `setFields` for
duplicate-free lists of such ids with as many values, each of which returns; it implies
the presence predicate "bit `k` set iff `k` occurs exactly once", which therefore holds
of the zero-value store and of every store reachable by such calls. -/
theorem presenceInv_reachable :
    wellFormed itemFields.empty ∧
    (∀ (s : itemFields) (k : Int) (v : Float64), wellFormed s → validId k →
      ∃ s' changed, setField s k v = some (s', changed) ∧ wellFormed s') ∧
    (∀ (s : itemFields) (k : Int), wellFormed s → validId k →
      ∃ s', deleteField s k = some s' ∧ wellFormed s') ∧
    (∀ (s : itemFields) (ks : List Int) (vals : List Float64), wellFormed s →
      (∀ k ∈ ks, validId k) → ks.Nodup → vals.length = ks.length →
      ∃ s' n, setFields s ks vals = some (s', n) ∧ wellFormed s') ∧
    (∀ s : itemFields, wellFormed s → presenceInv s) ∧
    presenceInv itemFields.empty ∧
    (∀ s : itemFields, Reachable s → presenceInv s) := by
  refine ⟨wellFormed_empty, fun s k v h hk => setField_wellFormed v h hk, ?_,
    fun s ks vals h hv hnd hlen => setFields_wellFormed h hv hnd hlen,
    fun s h => (dataModelInv_of_wellFormed h).2,
    (dataModelInv_of_wellFormed wellFormed_empty).2,
    fun s h => (dataModelInv_of_wellFormed (wellFormed_of_reachable h)).2⟩
  intro s k h hk
  obtain ⟨s', h1, h2, -⟩ := deleteField_wellFormed h hk
  exact ⟨s', h1, h2⟩

/-- Concrete instance of the amended C3: `store3` is reached by `setField(3, 5)` from
the zero-value store, and `deleteField(3)` keeps it well-formed. -/
theorem presenceInv_reachable_witness :
    Reachable store3 ∧ presenceInv store3 ∧ wellFormed store3 ∧ validId 3 ∧
      ∃ s', deleteField store3 3 = some s' ∧ wellFormed s' :=
  have hr : Reachable store3 :=
    @Reachable.setField itemFields.empty store3 3 Float64.five true Reachable.empty
      (by decide) (by decide)
  ⟨hr, presenceInv_reachable.2.2.2.2.2.2 store3 hr, by decide, by decide,
    presenceInv_reachable.2.2.1 store3 3 (by decide) (by decide)⟩

/-- Concrete instance of C8: id 4 is not tracked in the store `[3] ↦ [5]`. -/
theorem getField_default_witness :
    store3.fieldBitset.Test (toUint 4) = false ∧
      getField store3 4 = some (store3, Float64.zero) :=
  ⟨by decide, (getField_default store3 4).1 (by decide)⟩

theorem Float64.ne_self {v : Float64} (h : v.isNaN = false) : v.ne v = false := by
  simp [Float64.ne, h]

/-- For a value that is exactly representable as a `float32` and is not a NaN, a second
`setField` with the same value returns false on a well-formed store. -/
theorem setField_twice_representable {s : itemFields} {k : Int} {v : Float64}
    (h : wellFormed s) (hk : validId k) (hr : round32 v = v) (hn : v.isNaN = false) :
    ∃ s1 c1 s2, setField s k v = some (s1, c1) ∧ setField s1 k v = some (s2, false) ∧
      (s.fieldBitset.Test (toUint k) = false → c1 = v.ne Float64.zero) := by
  obtain ⟨s1, c1, hset, hw1⟩ := setField_wellFormed v h hk
  obtain ⟨s1', c1', hset', hget⟩ := getField_after_setField v h hk
  rw [hset] at hset'
  simp only [Option.some.injEq, Prod.mk.injEq] at hset'
  obtain ⟨rfl, rfl⟩ := hset'
  have hT : s1.fieldBitset.Test (toUint k) = true := by
    cases hb : s1.fieldBitset.Test (toUint k) with
    | true => rfl
    | false =>
      exfalso
      cases hb0 : s.fieldBitset.Test (toUint k) with
      | false =>
        rw [setField_of_clear v hb0] at hset
        simp only [Option.some.injEq, Prod.mk.injEq] at hset
        rw [← hset.1] at hb
        simp [BitSet.Test_Set_self] at hb
      | true =>
        obtain ⟨j, x, hj, hx⟩ := slot_of_tracked (dataModelInv_of_wellFormed h) hk hb0
        rw [setField_of_slot v hb0 hj hx] at hset
        simp only [Option.some.injEq, Prod.mk.injEq] at hset
        rw [← hset.1] at hb
        simp only at hb
        rw [hb0] at hb
        cases hb
  obtain ⟨j, x, hj, hx⟩ := slot_of_tracked (dataModelInv_of_wellFormed hw1) hk hT
  have hg := getField_of_slot hT hj hx
  rw [hget] at hg
  simp only [Option.some.injEq, Prod.mk.injEq, true_and] at hg
  have h2 : setField s1 k v =
      some (⟨s1.fieldBitset, s1.fieldIndexes, s1.fieldValues.set j v.toFloat32⟩, false) := by
    rw [setField_of_slot v hT hj hx, ← hg, hr, Float64.ne_self hn]
  refine ⟨s1, c1, _, hset, h2, ?_⟩
  intro hb0
  rw [setField_of_clear v hb0] at hset
  simp only [Option.some.injEq, Prod.mk.injEq] at hset
  exact hset.2.symm

/-! ## Deleting an absent field, weights -/

/-- C11: when the presence bit of `k` is clear, `deleteField(k)` returns the store it
was given, with `fieldBitset`, `fieldIndexes` and `fieldValues` unchanged, for every
store and every `k`, also when `uint8(k)` occurs in `fieldIndexes`. -/
theorem deleteField_absent (s : itemFields) (k : Int)
    (hclear : s.fieldBitset.Test (toUint k) = false) :
    ∃ s', deleteField s k = some s' ∧ s'.fieldBitset = s.fieldBitset ∧
      s'.fieldIndexes = s.fieldIndexes ∧ s'.fieldValues = s.fieldValues :=
  ⟨s, deleteField_of_clear hclear, rfl, rfl, rfl⟩

/-- Concrete instance of C11: in `dupStore` bit 5 is clear although 5 occurs in
`fieldIndexes`, and `deleteField(5)` changes nothing. -/
theorem deleteField_absent_witness :
    dupStore.fieldBitset.Test (toUint 5) = false ∧ toUint8 5 ∈ dupStore.fieldIndexes ∧
      deleteField dupStore 5 = some dupStore ∧
      ∃ s', deleteField dupStore 5 = some s' ∧ s'.fieldBitset = dupStore.fieldBitset ∧
        s'.fieldIndexes = dupStore.fieldIndexes ∧ s'.fieldValues = dupStore.fieldValues :=
  ⟨by decide, by decide, by decide, deleteField_absent dupStore 5 (by decide)⟩

theorem setBits_eq_length {s : itemFields} (h : wellFormed s) :
    s.fieldIndexes.length = setBits s.fieldBitset := by
  obtain ⟨-, hmem, hnd⟩ := h
  have h1 : (s.fieldIndexes.map Fin.val).Nodup := hnd.map Fin.val_injective
  have h2 : ((List.range s.fieldBitset.bits.length).filter s.fieldBitset.Test).Nodup :=
    (List.nodup_range _).filter _
  have hp : List.Perm (s.fieldIndexes.map Fin.val)
      ((List.range s.fieldBitset.bits.length).filter s.fieldBitset.Test) := by
    rw [List.perm_ext_iff_of_nodup h1 h2]
    intro k
    rw [← hmem k, List.mem_filter, List.mem_range]
    constructor
    · intro hT
      refine ⟨?_, hT⟩
      by_contra hlt
      rw [Test_eq_false_of_length_le _ (by omega)] at hT
      cases hT
    · exact fun h => h.2
  have := hp.length_eq
  rw [List.length_map] at this
  exact this

/-- C12 as stated fails in its second half: `dupStore` satisfies the data-model
invariants as worded, has two entries in `fieldIndexes` and no presence bit set. -/
theorem length_ne_setBits_on_dupStore :
    dataModelInv dupStore ∧ dupStore.fieldIndexes.length = 2 ∧
      setBits dupStore.fieldBitset = 0 ∧
      weight dupStore ≠ 5 * setBits dupStore.fieldBitset +
        dupStore.fieldBitset.BinaryStorageSize := by
  refine ⟨by decide, by decide, by decide, by decide⟩

/-- C12 (amended): for every store, `weight()` is `5 * len(fieldIndexes)` plus the
bitset's reported storage size, a non-negative integer; on a store with equal-length
slices in which bit `k` is set exactly when `k` occurs in `fieldIndexes` and no id
occurs twice, `len(fieldIndexes)` is the number of presence bits that are set, so
`weight()` is 5 times the number of tracked fields plus the bitset's storage size. -/
theorem weight_formula :
    (∀ s : itemFields,
      weight s = 5 * s.fieldIndexes.length + s.fieldBitset.BinaryStorageSize ∧
        (0 : Int) ≤ (weight s : Int)) ∧
    (∀ s : itemFields, wellFormed s →
      s.fieldIndexes.length = setBits s.fieldBitset ∧
        weight s = 5 * setBits s.fieldBitset + s.fieldBitset.BinaryStorageSize) := by
  refine ⟨fun s => ⟨rfl, Int.natCast_nonneg _⟩, fun s h => ?_⟩
  have hl := setBits_eq_length h
  exact ⟨hl, by rw [← hl]; rfl⟩

/-- Concrete instance of the amended C12: the store `[1, 2, 3] ↦ [0, 0, 9]` weighs
`5 * 3 + 16`. -/
theorem weight_formula_witness :
    wellFormed store123 ∧ setBits store123.fieldBitset = 3 ∧ weight store123 = 31 ∧
      store123.fieldIndexes.length = setBits store123.fieldBitset ∧
      weight store123 =
        5 * setBits store123.fieldBitset + store123.fieldBitset.BinaryStorageSize :=
  ⟨by decide, by decide, by decide, weight_formula.2 store123 (by decide)⟩

/-- C13: on a store satisfying the data-model invariants, for an id in 0..255,
`deleteField(k)` lowers `weight()` by exactly 5 when `k` is tracked (the bitset reports
the same storage size after the bit is cleared) and leaves it unchanged when `k` is not
tracked. -/
theorem deleteField_weight (s : itemFields) (k : Int) (hinv : dataModelInv s)
    (hk : validId k) :
    ∃ s', deleteField s k = some s' ∧
      s'.fieldBitset.BinaryStorageSize = s.fieldBitset.BinaryStorageSize ∧
      (s.fieldBitset.Test (toUint k) = true →
        weight s' + 5 = weight s ∧ weight s' = weight s - 5) ∧
      (s.fieldBitset.Test (toUint k) = false → weight s' = weight s) := by
  cases hb : s.fieldBitset.Test (toUint k) with
  | false =>
    exact ⟨s, deleteField_of_clear hb, rfl, fun h => (by cases h), fun _ => rfl⟩
  | true =>
    obtain ⟨j, x, hj, hx⟩ := slot_of_tracked hinv hk hb
    obtain ⟨fi, fv, y, hdel, hfi, hfv, -, -, -⟩ := deleteField_tracked hinv.1 hb hj
    have hjl := (findSlot_some hj).1
    obtain ⟨fi', hfi', hil, -⟩ := swapRemove_spec (a := s.fieldIndexes) hjl (Nat.le_refl _)
    rw [hfi] at hfi'
    simp only [Option.some.injEq] at hfi'
    subst hfi'
    have hs := BitSet.BinaryStorageSize_SetTo_false s.fieldBitset (toUint k)
    refine ⟨_, hdel, hs, fun _ => ?_, fun h => (by cases h)⟩
    simp only [weight, hil, hs]
    omega

/-- Concrete instance of C13: deleting id 2 from the store `[1, 2, 3] ↦ [0, 0, 9]`
takes the weight from 31 to 26. -/
theorem deleteField_weight_witness :
    dataModelInv store123 ∧ validId 2 ∧ store123.fieldBitset.Test (toUint 2) = true ∧
      weight store123 = 31 ∧
      ∃ s', deleteField store123 2 = some s' ∧
        s'.fieldBitset.BinaryStorageSize = store123.fieldBitset.BinaryStorageSize ∧
        (store123.fieldBitset.Test (toUint 2) = true →
          weight s' + 5 = weight store123 ∧ weight s' = weight store123 - 5) ∧
        (store123.fieldBitset.Test (toUint 2) = false → weight s' = weight store123) :=
  ⟨by decide, by decide, by decide, by decide,
    deleteField_weight store123 2 (by decide) (by decide)⟩

/-! ## The length invariant -/

theorem swapRemove_length {α : Type} {a : List α} {n t : Nat} {r : List α}
    (h : swapRemove a n t = some r) : r.length = n - 1 := by
  unfold swapRemove at h
  by_cases hn : n = 0
  · simp [hn] at h
  · simp only [hn, if_false] at h
    cases hl : a[n - 1]? with
    | none => simp [hl] at h
    | some last =>
      cases hx : a[t]? with
      | none => simp [hl, hx] at h
      | some x =>
        simp only [hl, hx, Option.some.injEq] at h
        have hlt : n - 1 < a.length := (List.getElem?_eq_some_iff.1 hl).1
        rw [← h]
        simp only [List.length_take, List.length_set]
        omega

theorem setField_lengthInv {s s' : itemFields} {k : Int} {v : Float64} {changed : Bool}
    (hl : lengthInv s) (h : setField s k v = some (s', changed)) : lengthInv s' := by
  unfold lengthInv at hl ⊢
  cases hb : s.fieldBitset.Test (toUint k) with
  | false =>
    rw [setField_of_clear v hb] at h
    simp only [Option.some.injEq, Prod.mk.injEq] at h
    rw [← h.1]
    simp [hl]
  | true =>
    unfold setField at h
    simp only [hb, if_true] at h
    cases hj : findSlot (toUint8 k) s.fieldIndexes with
    | none => simp [hj] at h
    | some j =>
      cases hx : s.fieldValues[j]? with
      | none => simp [hj, hx] at h
      | some x =>
        simp only [hj, hx, Option.some.injEq, Prod.mk.injEq] at h
        rw [← h.1]
        simp [hl]

theorem deleteField_lengthInv {s s' : itemFields} {k : Int}
    (hl : lengthInv s) (h : deleteField s k = some s') : lengthInv s' := by
  cases hb : s.fieldBitset.Test (toUint k) with
  | false =>
    rw [deleteField_of_clear hb] at h
    simp only [Option.some.injEq] at h
    exact h ▸ hl
  | true =>
    unfold deleteField at h
    simp only [hb, Bool.not_true, Bool.false_eq_true, if_false] at h
    cases hfi : swapRemove s.fieldIndexes s.fieldIndexes.length
        ((findSlot (toUint8 k) s.fieldIndexes).getD s.fieldIndexes.length) with
    | none => simp [hfi] at h
    | some fi =>
      cases hfv : swapRemove s.fieldValues s.fieldIndexes.length
          ((findSlot (toUint8 k) s.fieldIndexes).getD s.fieldIndexes.length) with
      | none => simp [hfi, hfv] at h
      | some fv =>
        simp only [hfi, hfv, Option.some.injEq] at h
        rw [← h]
        unfold lengthInv
        simp only
        rw [swapRemove_length hfi, swapRemove_length hfv]

theorem setFieldsLoop_lengths (fi : List uint8) (ks : List Int) :
    ∀ (vals : List Float64) (st st' : loopState),
      setFieldsLoop fi ks vals st = some st' →
      st'.fieldValues.length = st.fieldValues.length ∧
        st'.newFields.length = st.newFields.length ∧
        st'.newValues.length = st.newValues.length := by
  induction ks with
  | nil =>
    intro vals st st' h
    simp only [setFieldsLoop, Option.some.injEq] at h
    subst h
    exact ⟨rfl, rfl, rfl⟩
  | cons k ks ih =>
    intro vals st st' h
    unfold setFieldsLoop at h
    cases hb : st.fieldBitset.Test (toUint k) with
    | true =>
      simp only [hb, if_true] at h
      cases hj : findSlot (toUint8 k) fi with
      | none =>
        simp only [hj] at h
        exact ih _ _ _ h
      | some j =>
        simp only [hj] at h
        cases hx : st.fieldValues[j]? with
        | none => simp [hx] at h
        | some x =>
          cases hv : vals.head? with
          | none => simp [hx, hv] at h
          | some v =>
            simp only [hx, hv] at h
            have := ih _ _ _ h
            simpa using this
    | false =>
      simp only [hb, Bool.false_eq_true, if_false] at h
      cases hv : vals.head? with
      | none => simp [hv] at h
      | some v =>
        simp only [hv] at h
        by_cases hj : st.j < st.newFields.length ∧ st.j < st.newValues.length
        · simp only [hj, and_self, if_true] at h
          have := ih _ _ _ h
          simpa using this
        · simp [hj] at h

theorem setFields_lengthInv {s s' : itemFields} {ks : List Int} {vals : List Float64}
    {n : Nat} (hl : lengthInv s) (h : setFields s ks vals = some (s', n)) :
    lengthInv s' := by
  unfold lengthInv at hl ⊢
  unfold setFields at h
  simp only at h
  cases hloop : setFieldsLoop s.fieldIndexes ks vals
      ⟨s.fieldBitset, s.fieldValues,
        List.replicate (countNew s.fieldBitset ks) (wrap 8 0),
        List.replicate (countNew s.fieldBitset ks) Float32.zero, 0, 0⟩ with
  | none => simp [hloop] at h
  | some st =>
    obtain ⟨h1, h2, h3⟩ := setFieldsLoop_lengths _ _ _ _ _ hloop
    simp only [List.length_replicate] at h1 h2 h3
    simp only [hloop] at h
    by_cases hN : countNew s.fieldBitset ks > 0
    · simp only [hN, if_true, Option.some.injEq, Prod.mk.injEq] at h
      rw [← h.1]
      simp only [List.length_append]
      omega
    · simp only [hN, if_false, Option.some.injEq, Prod.mk.injEq] at h
      rw [← h.1]
      simp only
      omega

theorem lengthInv_of_reachableAny {s : itemFields} (h : ReachableAny s) : lengthInv s := by
  induction h with
  | empty => rfl
  | setField _ hset ih => exact setField_lengthInv ih hset
  | deleteField _ hdel ih => exact deleteField_lengthInv ih hdel
  | setFields _ _ hset ih => exact setFields_lengthInv ih hset

/-- C14: `len(fieldIndexes) = len(fieldValues)` holds of the zero-value store and is
kept by `setField` for any id and value, by `setFields` for any list of ids (repeated
ids included) with as many values, and by `deleteField`, whenever the call returns
rather than panics; so it holds in every store reachable by such calls. -/
theorem lengthInv_preserved :
    lengthInv itemFields.empty ∧
    (∀ (s s' : itemFields) (k : Int) (v : Float64) (changed : Bool),
      lengthInv s → setField s k v = some (s', changed) → lengthInv s') ∧
    (∀ (s s' : itemFields) (ks : List Int) (vals : List Float64) (n : Nat),
      lengthInv s → vals.length = ks.length → setFields s ks vals = some (s', n) →
      lengthInv s') ∧
    (∀ (s s' : itemFields) (k : Int),
      lengthInv s → deleteField s k = some s' → lengthInv s') ∧
    (∀ s : itemFields, ReachableAny s → lengthInv s) :=
  ⟨rfl, fun _ _ _ _ _ hl h => setField_lengthInv hl h,
    fun _ _ _ _ _ hl _ h => setFields_lengthInv hl h,
    fun _ _ _ hl h => deleteField_lengthInv hl h,
    fun _ h => lengthInv_of_reachableAny h⟩

/-- Concrete instance of C14: the batch `[5, 5] ↦ [9, 7]` with a repeated id, on the
zero-value store, returns a store with slices of equal length 2. -/
theorem lengthInv_preserved_witness :
    lengthInv itemFields.empty ∧
      setFields itemFields.empty [5, 5] [Float64.nine, Float64.seven] =
        some (⟨BitSet.empty.Set 5, [wrap 8 5, wrap 8 0],
          [Float64.nine.toFloat32, Float32.zero]⟩, 1) ∧
      lengthInv ⟨BitSet.empty.Set 5, [wrap 8 5, wrap 8 0],
          [Float64.nine.toFloat32, Float32.zero]⟩ :=
  ⟨by decide, by decide,
    lengthInv_preserved.2.2.1 itemFields.empty _ [5, 5] [Float64.nine, Float64.seven] 1
      (by decide) rfl (by decide)⟩

/-! ## Panics, and ids beyond one byte -/

/-- C15: in a store reachable from the zero-value store by `setField`, `deleteField` and
duplicate-free `setFields` calls with ids in 0..255, for every id in 0..255,
`getField`, `setField` and `deleteField` return rather than panic, and a tracked id has
a slot `t` below the length of both slices, so the scan of `deleteField` ends with
`target < len(fieldIndexes)`. -/
theorem no_panic_on_reachable (s : itemFields) (k : Int) (v : Float64)
    (hr : Reachable s) (hk : validId k) :
    (∃ x, getField s k = some (s, x)) ∧
      (∃ s' changed, setField s k v = some (s', changed)) ∧
      (∃ s', deleteField s k = some s') ∧
      (s.fieldBitset.Test (toUint k) = true →
        ∃ t, findSlot (toUint8 k) s.fieldIndexes = some t ∧
          (findSlot (toUint8 k) s.fieldIndexes).getD s.fieldIndexes.length = t ∧
          t < s.fieldIndexes.length ∧ t < s.fieldValues.length) := by
  have hw := wellFormed_of_reachable hr
  have hslot : s.fieldBitset.Test (toUint k) = true →
      ∃ t x, findSlot (toUint8 k) s.fieldIndexes = some t ∧ s.fieldValues[t]? = some x :=
    slot_of_tracked (dataModelInv_of_wellFormed hw) hk
  refine ⟨?_, ?_, ?_, ?_⟩
  · cases hb : s.fieldBitset.Test (toUint k) with
    | false => exact ⟨_, getField_of_clear hb⟩
    | true =>
      obtain ⟨t, x, ht, hx⟩ := hslot hb
      exact ⟨_, getField_of_slot hb ht hx⟩
  · obtain ⟨s', c, h, -⟩ := setField_wellFormed v hw hk
    exact ⟨s', c, h⟩
  · obtain ⟨s', h, -⟩ := deleteField_wellFormed hw hk
    exact ⟨s', h⟩
  · intro hb
    obtain ⟨t, x, ht, hx⟩ := hslot hb
    exact ⟨t, ht, by rw [ht]; rfl, (findSlot_some ht).1, (List.getElem?_eq_some_iff.1 hx).1⟩

/-- Concrete instance of C15: the store `[3] ↦ [5]`, reached by `setField(3, 5)`, and
the id 3. -/
theorem no_panic_on_reachable_witness :
    Reachable store3 ∧ validId 3 ∧
      (∃ x, getField store3 3 = some (store3, x)) ∧
      (∃ s' changed, setField store3 3 Float64.seven = some (s', changed)) ∧
      (∃ s', deleteField store3 3 = some s') ∧
      (store3.fieldBitset.Test (toUint 3) = true →
        ∃ t, findSlot (toUint8 3) store3.fieldIndexes = some t ∧
          (findSlot (toUint8 3) store3.fieldIndexes).getD store3.fieldIndexes.length = t ∧
          t < store3.fieldIndexes.length ∧ t < store3.fieldValues.length) :=
  have hr : Reachable store3 :=
    @Reachable.setField itemFields.empty store3 3 Float64.five true Reachable.empty
      (by decide) (by decide)
  ⟨hr, by decide, no_panic_on_reachable store3 3 Float64.seven hr (by decide)⟩

/-- C16: the ids 1 and 257 are distinct and equal modulo 256. On the zero-value store,
after `setField(1, 5)` and `setField(257, 7)` both are stored as the byte 1, and
`getField(257)` returns 5, the value of the first slot holding that byte, not 7. -/
theorem truncation_corrupts_lookup :
    (1 : Int) ≠ 257 ∧ (1 : Int) % 256 = 257 % 256 ∧ toUint8 1 = toUint8 257 ∧
      Float64.five ≠ Float64.seven ∧ Float64.five.ne Float64.seven = true ∧
      setField itemFields.empty 1 Float64.five =
        some (⟨BitSet.empty.Set 1, [wrap 8 1], [Float64.five.toFloat32]⟩, true) ∧
      setField ⟨BitSet.empty.Set 1, [wrap 8 1], [Float64.five.toFloat32]⟩ 257 Float64.seven =
        some (⟨(BitSet.empty.Set 1).Set 257, [wrap 8 1, wrap 8 1],
          [Float64.five.toFloat32, Float64.seven.toFloat32]⟩, true) ∧
      getField ⟨(BitSet.empty.Set 1).Set 257, [wrap 8 1, wrap 8 1],
          [Float64.five.toFloat32, Float64.seven.toFloat32]⟩ 257 =
        some (⟨(BitSet.empty.Set 1).Set 257, [wrap 8 1, wrap 8 1],
          [Float64.five.toFloat32, Float64.seven.toFloat32]⟩, Float64.five) := by
  refine ⟨by decide, by decide, by decide, by decide, by decide, by decide, by decide,
    by decide⟩

/-! ## A repeated id in one batch -/

/-- `setFields([k, k], [a, b])` when `k` is not tracked and `uint8(k)` is not stored. -/
theorem setFields_pair_new {s : itemFields} {k : Int} (a b : Float64)
    (hb : s.fieldBitset.Test (toUint k) = false) (hnm : toUint8 k ∉ s.fieldIndexes) :
    setFields s [k, k] [a, b] =
      some (⟨s.fieldBitset.Set (toUint k), s.fieldIndexes ++ [toUint8 k, wrap 8 0],
          s.fieldValues ++ [a.toFloat32, Float32.zero]⟩,
        if a.ne Float64.zero then 1 else 0) := by
  have hnone : findSlot (toUint8 k) s.fieldIndexes = none :=
    (findSlot_eq_none_iff _ _).2 hnm
  simp [setFields, countNew, setFieldsLoop, hb, BitSet.Test_Set_self, hnone, List.replicate]

/-- `setFields([k, k], [a, b])` when `k` is tracked with slot `t` holding `x`. -/
theorem setFields_pair_tracked {s : itemFields} {k : Int} (a b : Float64) {t : Nat}
    {x : Float32} (hb : s.fieldBitset.Test (toUint k) = true)
    (ht : findSlot (toUint8 k) s.fieldIndexes = some t) (hx : s.fieldValues[t]? = some x) :
    setFields s [k, k] [a, b] =
      some (⟨s.fieldBitset, s.fieldIndexes, s.fieldValues.set t b.toFloat32⟩,
        (if x.toFloat64.ne a then 1 else 0) + (if (round32 a).ne b then 1 else 0)) := by
  have htl : t < s.fieldValues.length := (List.getElem?_eq_some_iff.1 hx).1
  have hx' : (s.fieldValues.set t a.toFloat32)[t]? = some a.toFloat32 := by
    simp [List.getElem?_set_self htl]
  simp [setFields, countNew, setFieldsLoop, hb, ht, hx, hx', round32]

theorem presenceInv_broken_by_phantom {s : itemFields} {k : Int} (a : Float32)
    (h : wellFormed s) (hk : validId k) :
    ¬ presenceInv ⟨s.fieldBitset.Set (toUint k), s.fieldIndexes ++ [toUint8 k, wrap 8 0],
      s.fieldValues ++ [a, Float32.zero]⟩ := by
  intro hp
  have h0 := hp 0
  have hd := (dataModelInv_of_wellFormed h).2 0
  have hle : (s.fieldIndexes.map Fin.val).count 0 ≤ 1 :=
    List.nodup_iff_count_le_one.1 (h.2.2.map Fin.val_injective) 0
  have hw : (wrap 8 0 : uint8).val = 0 := rfl
  simp only [List.map_append, List.map_cons, List.map_nil, List.count_append,
    List.count_cons, List.count_nil, hw, toUint8_val_eq_toUint hk] at h0
  by_cases hk0 : toUint k = 0
  · rw [hk0] at h0
    have hT := BitSet.Test_Set_self s.fieldBitset 0
    have := h0.1 hT
    simp at this
  · have hT : (s.fieldBitset.Set (toUint k)).Test 0 = s.fieldBitset.Test 0 :=
      BitSet.Test_Set_ne _ (Ne.symm hk0)
    rw [hT] at h0
    simp only [beq_iff_eq, hk0, if_false, beq_self_eq_true, if_true, Nat.zero_add,
      Nat.add_zero] at h0
    cases hb : s.fieldBitset.Test 0 with
    | true =>
      have h1 := hd.1 hb
      have h2 := h0.1 hb
      omega
    | false =>
      have h1 : (s.fieldIndexes.map Fin.val).count 0 = 0 := by
        by_contra hne
        have : (s.fieldIndexes.map Fin.val).count 0 = 1 := by omega
        rw [hd.2 this] at hb
        cases hb
      have h2 := h0.2 (by omega)
      rw [hb] at h2
      cases h2

/-- C17 as stated fails: `dupStore` satisfies the data-model invariants as worded and
id 5 is not tracked in it, but `setFields([5, 5], [9, 7])` returns 2, not 1, and
overwrites the old first value with 7: the second 5 finds the older slot. -/
theorem repeated_new_id_fails_on_dupStore :
    dataModelInv dupStore ∧ validId 5 ∧ dupStore.fieldBitset.Test (toUint 5) = false ∧
      Float64.nine.ne Float64.zero = true ∧
      setFields dupStore [5, 5] [Float64.nine, Float64.seven] =
        some (⟨BitSet.empty.Set 5, [wrap 8 5, wrap 8 5, wrap 8 5, wrap 8 0],
          [Float64.seven.toFloat32, Float64.two.toFloat32, Float64.nine.toFloat32,
            Float32.zero]⟩, 2) ∧
      dupStore.fieldValues ++ [Float64.nine.toFloat32, Float32.zero] ≠
        [Float64.seven.toFloat32, Float64.two.toFloat32, Float64.nine.toFloat32,
          Float32.zero] := by
  refine ⟨by decide, by decide, by decide, by decide, by decide, by decide⟩

/-- C17 (amended): on a store with equal-length slices in which bit `k` is set exactly
when `k` occurs in `fieldIndexes` and no id occurs twice, for an untracked id in 0..255
and all values `a`, `b`, `setFields([k, k], [a, b])` returns 1 if `a != 0` and 0
otherwise, sets bit `k` and no other bit, and leaves `fieldIndexes = old ++ [k, 0]` and
`fieldValues = old ++ [float32(a), 0]`; the presence invariant no longer holds. On the
zero-value store with `k = 5`, a later `setField(0, 7)` is followed by
`getField(0) = 0`. -/
theorem setFields_repeated_new :
    (∀ (s : itemFields) (k : Int) (a b : Float64), wellFormed s → validId k →
      s.fieldBitset.Test (toUint k) = false →
      ∃ s', setFields s [k, k] [a, b] = some (s', if a.ne Float64.zero then 1 else 0) ∧
        s'.fieldBitset.Test (toUint k) = true ∧
        (∀ i : Nat, i ≠ toUint k → s'.fieldBitset.Test i = s.fieldBitset.Test i) ∧
        s'.fieldIndexes = s.fieldIndexes ++ [toUint8 k, wrap 8 0] ∧
        s'.fieldValues = s.fieldValues ++ [a.toFloat32, Float32.zero] ∧
        ¬ presenceInv s') ∧
    (setFields itemFields.empty [5, 5] [Float64.nine, Float64.seven] =
        some (⟨BitSet.empty.Set 5, [wrap 8 5, wrap 8 0],
          [Float64.nine.toFloat32, Float32.zero]⟩, 1) ∧
      setField ⟨BitSet.empty.Set 5, [wrap 8 5, wrap 8 0],
          [Float64.nine.toFloat32, Float32.zero]⟩ 0 Float64.seven =
        some (⟨(BitSet.empty.Set 5).Set 0, [wrap 8 5, wrap 8 0, wrap 8 0],
          [Float64.nine.toFloat32, Float32.zero, Float64.seven.toFloat32]⟩, true) ∧
      getField ⟨(BitSet.empty.Set 5).Set 0, [wrap 8 5, wrap 8 0, wrap 8 0],
          [Float64.nine.toFloat32, Float32.zero, Float64.seven.toFloat32]⟩ 0 =
        some (⟨(BitSet.empty.Set 5).Set 0, [wrap 8 5, wrap 8 0, wrap 8 0],
          [Float64.nine.toFloat32, Float32.zero, Float64.seven.toFloat32]⟩,
          Float64.zero)) := by
  refine ⟨?_, by decide, by decide, by decide⟩
  intro s k a b h hk hb
  exact ⟨_, setFields_pair_new a b hb (not_mem_of_clear h hk hb), BitSet.Test_Set_self _ _,
    fun i hi => BitSet.Test_Set_ne _ hi, rfl, rfl, presenceInv_broken_by_phantom _ h hk⟩

/-- Concrete instance of the amended C17: the batch `[4, 4] ↦ [9, 7]` on the store
`[3] ↦ [5]`. -/
theorem setFields_repeated_new_witness :
    wellFormed store3 ∧ validId 4 ∧ store3.fieldBitset.Test (toUint 4) = false ∧
      ∃ s', setFields store3 [4, 4] [Float64.nine, Float64.seven] =
          some (s', if Float64.nine.ne Float64.zero then 1 else 0) ∧
        s'.fieldBitset.Test (toUint 4) = true ∧
        (∀ i : Nat, i ≠ toUint 4 → s'.fieldBitset.Test i = store3.fieldBitset.Test i) ∧
        s'.fieldIndexes = store3.fieldIndexes ++ [toUint8 4, wrap 8 0] ∧
        s'.fieldValues = store3.fieldValues ++ [Float64.nine.toFloat32, Float32.zero] ∧
        ¬ presenceInv s' :=
  ⟨by decide, by decide, by decide,
    setFields_repeated_new.1 store3 4 Float64.nine Float64.seven (by decide) (by decide)
      (by decide)⟩

/-- C20: on a store satisfying the data-model invariants, for a tracked id in 0..255
with stored value `x` and all values `a`, `b`, `setFields([k, k], [a, b])` appends
nothing, leaves the bits and `fieldIndexes` as they were (so the invariants still hold),
leaves `getField(k) = round32(b)`, and returns `(1 if x != a else 0) +
(1 if round32(a) != b else 0)`; on the store `[3] ↦ [5]` the batch `[3, 3] ↦ [7, 9]`
returns 2. -/
theorem setFields_repeated_tracked :
    (∀ (s : itemFields) (k : Int) (a b : Float64), dataModelInv s → validId k →
      s.fieldBitset.Test (toUint k) = true →
      ∃ s' x, storedValue s k = some x ∧
        setFields s [k, k] [a, b] =
          some (s', (if x.ne a then 1 else 0) + (if (round32 a).ne b then 1 else 0)) ∧
        s'.fieldIndexes = s.fieldIndexes ∧
        s'.fieldValues.length = s.fieldValues.length ∧
        s'.fieldBitset = s.fieldBitset ∧
        dataModelInv s' ∧
        getField s' k = some (s', round32 b)) ∧
    setFields store3 [3, 3] [Float64.seven, Float64.nine] =
      some (⟨BitSet.empty.Set 3, [wrap 8 3], [Float64.nine.toFloat32]⟩, 2) := by
  refine ⟨?_, by decide⟩
  intro s k a b hinv hk hb
  obtain ⟨t, x, ht, hx⟩ := slot_of_tracked hinv hk hb
  have htl : t < s.fieldValues.length := (List.getElem?_eq_some_iff.1 hx).1
  refine ⟨_, x.toFloat64, storedValue_of_slot hb ht hx, setFields_pair_tracked a b hb ht hx,
    rfl, by simp, rfl, ⟨?_, hinv.2⟩, ?_⟩
  · have := hinv.1
    unfold lengthInv at this ⊢
    simp [this]
  · exact getField_of_slot hb ht (by simp [List.getElem?_set_self htl])

/-- Concrete instance of C20: the batch `[3, 3] ↦ [0.1, 0.1]` on the store `[3] ↦ [5]`
counts two updates, since `round32(0.1)` differs from 0.1. -/
theorem setFields_repeated_tracked_witness :
    dataModelInv store3 ∧ validId 3 ∧ store3.fieldBitset.Test (toUint 3) = true ∧
      setFields store3 [3, 3] [Float64.tenth, Float64.tenth] =
        some (⟨BitSet.empty.Set 3, [wrap 8 3], [Float64.tenth.toFloat32]⟩, 2) ∧
      ∃ s' x, storedValue store3 3 = some x ∧
        setFields store3 [3, 3] [Float64.tenth, Float64.tenth] =
          some (s', (if x.ne Float64.tenth then 1 else 0) +
            (if (round32 Float64.tenth).ne Float64.tenth then 1 else 0)) ∧
        s'.fieldIndexes = store3.fieldIndexes ∧
        s'.fieldValues.length = store3.fieldValues.length ∧
        s'.fieldBitset = store3.fieldBitset ∧
        dataModelInv s' ∧
        getField s' 3 = some (s', round32 Float64.tenth) :=
  ⟨by decide, by decide, by decide, by decide,
    setFields_repeated_tracked.1 store3 3 Float64.tenth Float64.tenth (by decide)
      (by decide) (by decide)⟩

/-! ## Other fields are left alone -/

theorem getField_some_of_dataModelInv {s : itemFields} {k : Int} (hinv : dataModelInv s)
    (hk : validId k) : ∃ x, getField s k = some (s, x) := by
  cases hb : s.fieldBitset.Test (toUint k) with
  | false => exact ⟨_, getField_of_clear hb⟩
  | true =>
    obtain ⟨t, x, ht, hx⟩ := slot_of_tracked hinv hk hb
    exact ⟨_, getField_of_slot hb ht hx⟩

theorem getField_of_storedValue {s : itemFields} {k : Int} {x : Float64}
    (h : storedValue s k = some x) : getField s k = some (s, x) := by
  unfold storedValue at h
  unfold getField at h ⊢
  cases hb : s.fieldBitset.Test (toUint k) with
  | false => simpa [hb] using h
  | true =>
    simp only [hb, Bool.not_true, Bool.false_eq_true, if_false] at h ⊢
    cases hj : findSlot (toUint8 k) s.fieldIndexes with
    | none => simp [hj] at h
    | some j =>
      cases hx : s.fieldValues[j]? with
      | none => simp [hj, hx] at h
      | some y => simpa [hj, hx] using h

theorem storedValue_of_getField {s s' : itemFields} {k : Int} {x : Float64}
    (h : getField s k = some (s', x)) : storedValue s k = some x := by
  simp [storedValue, h]

/-- C18: on a store satisfying the data-model invariants, for distinct ids `k`, `k'` in
0..255, `deleteField(k)` returns, and `getField(k')` returns the same value after it as
before it; the presence bit of `k'` is unchanged as well. -/
theorem deleteField_frame (s : itemFields) (k k' : Int) (hinv : dataModelInv s)
    (hk : validId k) (hk' : validId k') (hne : k ≠ k') :
    ∃ s' x, deleteField s k = some s' ∧ getField s k' = some (s, x) ∧
      getField s' k' = some (s', x) ∧
      s'.fieldBitset.Test (toUint k') = s.fieldBitset.Test (toUint k') := by
  have hune : toUint k' ≠ toUint k := fun e => hne (toUint_injective hk hk' e.symm)
  have hu8 : toUint8 k ≠ toUint8 k' := fun e => hne (toUint8_injective hk hk' e)
  cases hb : s.fieldBitset.Test (toUint k) with
  | false =>
    obtain ⟨x, hx⟩ := getField_some_of_dataModelInv hinv hk'
    exact ⟨s, x, deleteField_of_clear hb, hx, hx, rfl⟩
  | true =>
    obtain ⟨j, y, hj, hy⟩ := slot_of_tracked hinv hk hb
    obtain ⟨fi, fv, z, hdel, hfi, hfv, hz, hperm, hzip⟩ := deleteField_tracked hinv.1 hb hj
    have hT : (s.fieldBitset.SetTo (toUint k) false).Test (toUint k') =
        s.fieldBitset.Test (toUint k') := BitSet.Test_SetTo_false_ne _ hune
    cases hb' : s.fieldBitset.Test (toUint k') with
    | false =>
      refine ⟨_, _, hdel, getField_of_clear hb', getField_of_clear ?_, ?_⟩
      · simp only; rw [hT, hb']
      · simp only; rw [hT, hb']
    | true =>
      obtain ⟨t, w, ht, hw⟩ := slot_of_tracked hinv hk' hb'
      have hc : (s.fieldIndexes.map Fin.val).count (toUint k') = 1 :=
        (hinv.2 (toUint k')).1 hb'
      have hc' : (fi.map Fin.val).count (toUint k') = 1 := by
        have hp := (hperm.map Fin.val).count_eq (toUint k')
        rw [hc, List.map_cons, List.count_cons] at hp
        have hv : ¬ (toUint8 k).val = toUint k' := by
          rw [toUint8_val_eq_toUint hk]; exact Ne.symm hune
        simp only [beq_iff_eq, hv, if_false, Nat.add_zero] at hp
        exact hp.symm
      have hmem : (toUint8 k', w) ∈ s.fieldIndexes.zip s.fieldValues := by
        rw [List.mem_iff_getElem?]
        exact ⟨t, List.getElem?_zip_eq_some.2 ⟨(findSlot_some ht).2.1, hw⟩⟩
      have hmem' : (toUint8 k', w) ∈ fi.zip fv := by
        have := hzip.mem_iff.1 hmem
        rw [List.mem_cons] at this
        rcases this with e | h
        · exact absurd (congrArg Prod.fst e).symm hu8
        · exact h
      obtain ⟨i, hi⟩ := List.mem_iff_getElem?.1 hmem'
      rw [List.getElem?_zip_eq_some] at hi
      have hslot : findSlot (toUint8 k') fi = some i :=
        findSlot_of_getElem? hc' (toUint8_val_eq_toUint hk') hi.1
      refine ⟨_, _, hdel, getField_of_slot hb' ht hw, ?_, ?_⟩
      · exact getField_of_slot (by simp only; rw [hT, hb']) hslot hi.2
      · simp only; rw [hT, hb']

/-- Concrete instance of C18: deleting id 1 from the store `[1, 2, 3] ↦ [0, 0, 9]` moves
the slot of id 3, and `getField(3)` still returns 9. -/
theorem deleteField_frame_witness :
    dataModelInv store123 ∧ validId 1 ∧ validId 3 ∧ (1 : Int) ≠ 3 ∧
      getField store123 3 = some (store123, Float64.nine) ∧
      ∃ s' x, deleteField store123 1 = some s' ∧ getField store123 3 = some (store123, x) ∧
        getField s' 3 = some (s', x) ∧
        s'.fieldBitset.Test (toUint 3) = store123.fieldBitset.Test (toUint 3) :=
  ⟨by decide, by decide, by decide, by decide, by decide,
    deleteField_frame store123 1 3 (by decide) (by decide) (by decide) (by decide)⟩

theorem setFieldSeq_frame {k' : Int} (hk' : validId k') (ks : List Int) :
    ∀ (vals : List Float64) (s s' : itemFields) (n : Nat),
      (∀ k ∈ ks, validId k) → k' ∉ ks → slotsPresent s [k'] →
      setFieldSeq s ks vals = some (s', n) →
      s'.fieldBitset.Test (toUint k') = s.fieldBitset.Test (toUint k') ∧
        storedValue s' k' = storedValue s k' := by
  induction ks with
  | nil =>
    intro vals s s' n _ _ _ h
    simp only [setFieldSeq, Option.some.injEq, Prod.mk.injEq] at h
    rw [← h.1]
    exact ⟨rfl, rfl⟩
  | cons k ks ih =>
    intro vals s s' n hv hnm hslot h
    simp only [List.mem_cons, not_or] at hnm
    cases vals with
    | nil => simp [setFieldSeq] at h
    | cons v vs =>
      unfold setFieldSeq at h
      cases hset : setField s k v with
      | none => simp [hset] at h
      | some r =>
        obtain ⟨s1, c⟩ := r
        simp only [hset] at h
        cases hseq : setFieldSeq s1 ks vs with
        | none => simp [hseq] at h
        | some r' =>
          obtain ⟨s2, m⟩ := r'
          simp only [hseq, Option.some.injEq, Prod.mk.injEq] at h
          obtain ⟨rfl, -⟩ := h
          obtain ⟨h1, h2, h3⟩ := setField_frame (hv k (List.mem_cons_self _ _)) hk'
            (Ne.symm hnm.1) hset hslot
          obtain ⟨h4, h5⟩ := ih vs s1 s2 m
            (fun a ha => hv a (List.mem_cons_of_mem _ ha)) hnm.2 h3 hseq
          exact ⟨h4.trans h1, h5.trans h2⟩

/-- C19: on a store satisfying the data-model invariants, for distinct ids `k`, `k'` in
0..255, `setField(k, v)` returns, `getField(k')` returns the same value after it as
before it, and the presence bit of `k'` is unchanged; the same holds after
`setFields(ks, vals)` for a duplicate-free list `ks` of ids in 0..255 with as many
values and every `k'` in 0..255 that does not occur in `ks`. -/
theorem set_frame :
    (∀ (s : itemFields) (k k' : Int) (v : Float64), dataModelInv s → validId k →
      validId k' → k ≠ k' →
      ∃ s' changed x, setField s k v = some (s', changed) ∧
        getField s k' = some (s, x) ∧ getField s' k' = some (s', x) ∧
        s'.fieldBitset.Test (toUint k') = s.fieldBitset.Test (toUint k')) ∧
    (∀ (s : itemFields) (ks : List Int) (vals : List Float64) (k' : Int),
      dataModelInv s → (∀ k ∈ ks, validId k) → ks.Nodup → vals.length = ks.length →
      validId k' → k' ∉ ks →
      ∃ s' n x, setFields s ks vals = some (s', n) ∧
        getField s k' = some (s, x) ∧ getField s' k' = some (s', x) ∧
        s'.fieldBitset.Test (toUint k') = s.fieldBitset.Test (toUint k')) := by
  constructor
  · intro s k k' v hinv hk hk' hne
    have hslot : slotsPresent s [k] :=
      slotsPresent_of_dataModelInv hinv (fun a ha => by
        rw [List.mem_singleton] at ha; exact ha ▸ hk)
    have hslot' : slotsPresent s [k'] :=
      slotsPresent_of_dataModelInv hinv (fun a ha => by
        rw [List.mem_singleton] at ha; exact ha ▸ hk')
    obtain ⟨s1, c, hset, -⟩ := setField_some_of_slotsPresent v hslot
    obtain ⟨x, hx⟩ := getField_some_of_dataModelInv hinv hk'
    obtain ⟨h1, h2, -⟩ := setField_frame hk hk' hne hset hslot'
    refine ⟨s1, c, x, hset, hx, getField_of_storedValue ?_, h1⟩
    rw [h2]
    exact storedValue_of_getField hx
  · intro s ks vals k' hinv hv hnd hlen hk' hnm
    have hslot' : slotsPresent s [k'] :=
      slotsPresent_of_dataModelInv hinv (fun a ha => by
        rw [List.mem_singleton] at ha; exact ha ▸ hk')
    obtain ⟨s', n, h1, h2⟩ :=
      setFields_eq_setFieldSeq hnd hv hlen (slotsPresent_of_dataModelInv hinv hv)
    obtain ⟨x, hx⟩ := getField_some_of_dataModelInv hinv hk'
    obtain ⟨h3, h4⟩ := setFieldSeq_frame hk' ks vals s s' n hv hnm hslot' h2
    refine ⟨s', n, x, h1, hx, getField_of_storedValue ?_, h3⟩
    rw [h4]
    exact storedValue_of_getField hx

/-- Concrete instance of C19: `setField(4, 7)` and the batch `[4, 5] ↦ [7, 0.1]` on the
store `[3] ↦ [5]` leave `getField(3) = 5`. -/
theorem set_frame_witness :
    dataModelInv store3 ∧ getField store3 3 = some (store3, Float64.five) ∧
      (∃ s' changed x, setField store3 4 Float64.seven = some (s', changed) ∧
        getField store3 3 = some (store3, x) ∧ getField s' 3 = some (s', x) ∧
        s'.fieldBitset.Test (toUint 3) = store3.fieldBitset.Test (toUint 3)) ∧
      (∃ s' n x, setFields store3 [4, 5] [Float64.seven, Float64.tenth] = some (s', n) ∧
        getField store3 3 = some (store3, x) ∧ getField s' 3 = some (s', x) ∧
        s'.fieldBitset.Test (toUint 3) = store3.fieldBitset.Test (toUint 3)) :=
  ⟨by decide, by decide,
    set_frame.1 store3 4 3 Float64.seven (by decide) (by decide) (by decide) (by decide),
    set_frame.2 store3 [4, 5] [Float64.seven, Float64.tenth] 3 (by decide) (by decide)
      (by decide) rfl (by decide) (by decide)⟩

end Fields
